import Mathlib

/-!
Verification of the TaaS turtle-orchestrator backend.

This file shallowly embeds the parts of the Python orchestrator that the
checked properties are about:

* a JSON value model (`J`) with Python truthiness, mirroring what
  `json.loads` hands the server;
* the persisted per-turtle record and `db_state.set_state` /
  `db_state.get_state` (COALESCE patch semantics);
* the agent-session command layer of `backend/turtle.py`
  (`_send`, `eval`, `forward`, `_apply_movement`, the inspect and
  inventory normalizers, `get_inventory_details`);
* the WebSocket gateway handshake of `backend/server.py`;
* the routine-runner lifecycle wrapper of `main.py`;
* the subroutines `dump_to_left_chest` and `mine_ore_vein` of
  `routines/subroutines.py`, the latter over an explicit voxel-world
  model with a BFS over the mined set.

Machine integers in the source are Python `int`s (unbounded), so they are
embedded as `Int`/`Nat`.  Fallible Python code (attribute and arity
errors) is embedded in `Except String`.
-/

namespace TaaS

/-! ## Reduction helpers for the `Except` monad -/

theorem exceptBindOk {ε α β : Type} (a : α) (f : α → Except ε β) :
    (Except.ok a >>= f) = f a := rfl

theorem exceptBindErr {ε α β : Type} (e : ε) (f : α → Except ε β) :
    ((Except.error e : Except ε α) >>= f) = Except.error e := rfl

theorem exceptPureEq {ε α : Type} (a : α) :
    (pure a : Except ε α) = Except.ok a := rfl

/-! ## JSON values and Python truthiness -/

/-- JSON values as produced by `json.loads`: objects are association
lists in key order, and Python `bool` is kept distinct from numbers
because `isinstance(True, int)` holds in Python while JSON distinguishes
the two. -/
inductive J where
  | null : J
  | bool (b : Bool) : J
  | num (n : Int) : J
  | str (s : String) : J
  | arr (xs : List J) : J
  | obj (kvs : List (String × J)) : J

/-- Python truthiness of a decoded JSON value: `None`, `False`, `0`,
`""`, `[]` and `` are falsy, everything else truthy. -/
def truthy : J → Bool
  | .null => false
  | .bool b => b
  | .num n => n != 0
  | .str s => s != ""
  | .arr xs => !xs.isEmpty
  | .obj kvs => !kvs.isEmpty

/-- `d.get(k)` on an association list standing for a Python dict:
first binding for the key, `none` when absent. -/
def dictGet (kvs : List (String × J)) (k : String) : Option J :=
  (kvs.find? (fun kv => kv.1 == k)).map (·.2)

/-- `d.get(k, default)`. -/
def dictGetD (kvs : List (String × J)) (k : String) (d : J) : J :=
  (dictGet kvs k).getD d

/-- `k in d` for a Python dict: key membership. -/
def dictHasKey (kvs : List (String × J)) (k : String) : Bool :=
  kvs.any (fun kv => kv.1 == k)

/-! ## `backend/db_state.py`: the persisted turtle row -/

/-- One row of the `turtles` table, restricted to the columns read and
written by `get_state` / `set_state`.  Every column is nullable. -/
structure TurtleRow where
  fuel_level : Option Int
  inv_json : Option String
  x : Option Int
  y : Option Int
  z : Option Int
  heading : Option Int
  connection_status : Option String
  label : Option String
  deriving DecidableEq, Repr

/-- The patch accepted by `db_state.set_state`: every keyword argument
defaults to `None`, and coordinates arrive as one optional triple. -/
structure StatePatch where
  fuel_level : Option Int
  inv_json : Option String
  coords : Option (Int × Int × Int)
  heading : Option Int
  connection_status : Option String
  label : Option String
  deriving DecidableEq, Repr

/-- The patch with every field absent. -/
def StatePatch.empty : StatePatch :=
  ⟨none, none, none, none, none, none⟩

/-- `db_state.set_state` on an existing row: the UPDATE statement writes
`COALESCE(?, column)` for every column, where the bound parameter is
`NULL` exactly when the keyword was not supplied; `x,y,z` are unpacked
from the `coords` triple (all three `NULL` when `coords is None`). -/
def coalesce {α : Type} (param : Option α) (col : Option α) : Option α :=
  match param with
  | some v => some v
  | none => col

def setState (row : TurtleRow) (p : StatePatch) : TurtleRow :=
  let xyz : Option Int × Option Int × Option Int :=
    match p.coords with
    | none => (none, none, none)
    | some (a, b, c) => (some a, some b, some c)
  { fuel_level := coalesce p.fuel_level row.fuel_level
    inv_json := coalesce p.inv_json row.inv_json
    x := coalesce xyz.1 row.x
    y := coalesce xyz.2.1 row.y
    z := coalesce xyz.2.2 row.z
    heading := coalesce p.heading row.heading
    connection_status := coalesce p.connection_status row.connection_status
    label := coalesce p.label row.label }

/-- The coordinate view `get_state` exposes: the `coords` entry is a
triple exactly when all three of `x,y,z` are non-NULL. -/
def getStateCoords (row : TurtleRow) : Option (Int × Int × Int) :=
  match row.x, row.y, row.z with
  | some a, some b, some c => some (a, b, c)
  | _, _, _ => none

/-! ## C9: patch semantics of `set_state` -/

/-- C9: for every `set_state(id, patch)` on an existing record, every
field not supplied in the patch keeps its pre-state value, and the
`x,y,z` columns are written as one all-or-nothing triple: all three from
the patch's `coords` when it is supplied, none of them otherwise. -/
theorem set_state_patch_frame (row : TurtleRow) (p : StatePatch) :
    (p.fuel_level = none → (setState row p).fuel_level = row.fuel_level) ∧
    (p.inv_json = none → (setState row p).inv_json = row.inv_json) ∧
    (p.heading = none → (setState row p).heading = row.heading) ∧
    (p.connection_status = none →
      (setState row p).connection_status = row.connection_status) ∧
    (p.label = none → (setState row p).label = row.label) ∧
    (p.coords = none →
      (setState row p).x = row.x ∧ (setState row p).y = row.y ∧
        (setState row p).z = row.z) ∧
    (∀ a b c, p.coords = some (a, b, c) →
      (setState row p).x = some a ∧ (setState row p).y = some b ∧
        (setState row p).z = some c) := by
  refine ⟨?_, ?_, ?_, ?_, ?_, ?_, ?_⟩
  · intro h; simp [setState, coalesce, h]
  · intro h; simp [setState, coalesce, h]
  · intro h; simp [setState, coalesce, h]
  · intro h; simp [setState, coalesce, h]
  · intro h; simp [setState, coalesce, h]
  · intro h; simp [setState, coalesce, h]
  · intro a b c h; simp [setState, coalesce, h]

/-- Witness for C9 at a concrete row and patch: patching only the
heading of a fully populated row leaves every other column, including
the coordinate triple, unchanged. -/
theorem set_state_patch_frame_witness :
    (setState ⟨some 7, some "[]", some 1, some 2, some 3, some 0,
        some "connected", some "t"⟩
      { StatePatch.empty with heading := some 2 }).x = some 1 ∧
    (setState ⟨some 7, some "[]", some 1, some 2, some 3, some 0,
        some "connected", some "t"⟩
      { StatePatch.empty with heading := some 2 }).fuel_level = some 7 := by
  have h := set_state_patch_frame
    ⟨some 7, some "[]", some 1, some 2, some 3, some 0,
      some "connected", some "t"⟩
    { StatePatch.empty with heading := some 2 }
  exact ⟨(h.2.2.2.2.2.1 rfl).1, h.1 rfl⟩

/-! ## `backend/turtle.py`: the request lifecycle of `_Session._send` -/

/-- How the await of the reply future ends inside `_send`: the inbox
task completes it with a reply frame, the 30-second deadline fires
(`asyncio.TimeoutError`), or the socket send (or the await itself)
raises some other exception. -/
inductive SendOutcome where
  | reply (frame : List (String × J)) : SendOutcome
  | deadline : SendOutcome
  | sendFailure (msg : String) : SendOutcome

/-- The structured result `_send` returns when the agent is dead. -/
def disconnectedResp : List (String × J) :=
  [("ok", J.bool false), ("error", J.str "turtle disconnected")]

/-- The structured result `_send` returns on the 30-second deadline. -/
def timeoutResp : List (String × J) :=
  [("ok", J.bool false), ("error", J.str "timeout")]

/-- The structured result `_send` returns when sending raises. -/
def sendFailureResp (msg : String) : List (String × J) :=
  [("ok", J.bool false), ("error", J.str msg)]

/-- `self._pending[req_id] = fut`: register a key in the pending map
(dict assignment overwrites, so as a key set this is insert). -/
def registerPending (pending : List String) (reqId : String) : List String :=
  if reqId ∈ pending then pending else pending ++ [reqId]

/-- `_send(line)` of `backend/turtle.py`, as a function of the liveness
flag, the current pending key set, the freshly generated request id and
the awaited outcome.  Returns the structured reply together with the
pending key set after all exit paths ran: on a reply the inbox pops the
id before completing the future and the `finally` block pops again
(a no-op); on deadline or failure only the `finally` pop runs. -/
def sendModel (alive : Bool) (pending : List String) (reqId : String)
    (oc : SendOutcome) : List (String × J) × List String :=
  if !alive then (disconnectedResp, pending)
  else
    let registered := registerPending pending reqId
    match oc with
    | .reply frame => (frame, (registered.erase reqId).erase reqId)
    | .deadline => (timeoutResp, registered.erase reqId)
    | .sendFailure msg => (sendFailureResp msg, registered.erase reqId)

/-- Registering a fresh id and then popping it restores the map. -/
theorem register_then_pop {pending : List String} {reqId : String}
    (h : reqId ∉ pending) :
    (registerPending pending reqId).erase reqId = pending := by
  simp only [registerPending, if_neg h]
  rw [List.erase_append_right _ (by simpa using h)]
  simp

/-- C2: `_send` on a dead agent returns the structured disconnection
error and touches nothing; on a live agent the deadline path returns the
timeout error and a completed reply is returned verbatim; and on every
exit path the request id has been removed from the pending map, which is
back to its pre-call contents. -/
theorem send_request_lifecycle (alive : Bool) (pending : List String)
    (reqId : String) (oc : SendOutcome) (hfresh : reqId ∉ pending) :
    (alive = false →
      (sendModel alive pending reqId oc).1 = disconnectedResp) ∧
    (alive = true → oc = .deadline →
      (sendModel alive pending reqId oc).1 = timeoutResp) ∧
    (∀ frame, alive = true → oc = .reply frame →
      (sendModel alive pending reqId oc).1 = frame) ∧
    reqId ∉ (sendModel alive pending reqId oc).2 ∧
    (sendModel alive pending reqId oc).2 = pending := by
  cases alive with
  | false =>
      refine ⟨fun _ => rfl, by simp, by simp, ?_, rfl⟩
      simpa [sendModel] using hfresh
  | true =>
      have hpop := register_then_pop hfresh
      cases oc with
      | reply frame =>
          refine ⟨by simp, by simp, fun f _ hf => ?_, ?_, ?_⟩
          · cases hf; rfl
          · simpa [sendModel, hpop, List.erase_of_not_mem hfresh] using hfresh
          · simp [sendModel, hpop, List.erase_of_not_mem hfresh]
      | deadline =>
          refine ⟨by simp, fun _ _ => rfl, by simp, ?_, ?_⟩
          · simpa [sendModel, hpop] using hfresh
          · simp [sendModel, hpop]
      | sendFailure msg =>
          refine ⟨by simp, by simp, by simp, ?_, ?_⟩
          · simpa [sendModel, hpop] using hfresh
          · simp [sendModel, hpop]

/-- Witness for C2 at a concrete call: a fresh id against a one-element
pending map, on the deadline path, yields the timeout error and leaves
the pending map as it was. -/
theorem send_request_lifecycle_witness :
    (sendModel true ["s_a"] "s_b" .deadline).1 = timeoutResp ∧
    "s_b" ∉ (sendModel true ["s_a"] "s_b" .deadline).2 := by
  have h := send_request_lifecycle true ["s_a"] "s_b" .deadline (by simp)
  exact ⟨h.2.1 rfl rfl, h.2.2.2.1⟩

/-! ## C6: `_Session.eval` -/

/-- `eval(line)` of `backend/turtle.py` as a function of the reply
frame `_send` produced: `bool(resp.get("ok"))` decides between
returning `resp.get("value")` and the sentinel `False`.  The function
is total: no path of `eval` raises (`_send` already catches every
exception and returns a structured failure). -/
def evalModel (resp : List (String × J)) : J :=
  if truthy ((dictGet resp "ok").getD J.null) then
    (dictGet resp "value").getD J.null
  else
    J.bool false

/-- C6: when the reply carries `ok = true`, `eval` returns the reply's
`value` (Python `None`, embedded as `J.null`, when the key is absent);
when the reply carries `ok = false`, `eval` returns the sentinel
`False`.  `evalModel` is a total function, reflecting that no branch of
`eval` raises. -/
theorem eval_value_or_sentinel (resp : List (String × J)) :
    (dictGet resp "ok" = some (J.bool true) →
      evalModel resp = (dictGet resp "value").getD J.null) ∧
    (dictGet resp "ok" = some (J.bool false) →
      evalModel resp = J.bool false) := by
  constructor
  · intro h; simp [evalModel, h, truthy]
  · intro h; simp [evalModel, h, truthy]

/-- Witness for C6 at concrete replies: an `ok` reply yields its value,
a failed reply yields the sentinel `False`. -/
theorem eval_value_or_sentinel_witness :
    evalModel [("ok", J.bool true), ("value", J.num 64)] = J.num 64 ∧
    evalModel [("ok", J.bool false), ("error", J.str "timeout")]
      = J.bool false := by
  refine ⟨?_, ?_⟩
  · exact (eval_value_or_sentinel
      [("ok", J.bool true), ("value", J.num 64)]).1 rfl
  · exact (eval_value_or_sentinel
      [("ok", J.bool false), ("error", J.str "timeout")]).2 rfl

/-! ## C1: `_Session.forward` and `_apply_movement` -/

/-- Success parsing shared by the movement commands: a reply value that
is a list takes its first element's truthiness (`[ok, reason]` shape),
an empty list or any other value is taken as a plain truthiness test. -/
def parseMoveResult (result : J) : Bool :=
  match result with
  | .arr (x :: _) => truthy x
  | v => truthy v

/-- `_apply_movement(dx, dy, dz, fuel_cost)`: read the row, default
missing coordinates to the origin, shift by the delta, clamp the fuel
subtraction at zero when the fuel level is a known integer and the cost
is non-zero, and write fuel and coordinate triple back through
`set_state`. -/
def applyMovement (row : TurtleRow) (dx dy dz fuelCost : Int) : TurtleRow :=
  let c := (getStateCoords row).getD (0, 0, 0)
  let moved := (c.1 + dx, c.2.1 + dy, c.2.2 + dz)
  let fuel : Option Int :=
    match row.fuel_level with
    | some f => some (if fuelCost != 0 then max 0 (f - fuelCost) else f)
    | none => none
  setState row { StatePatch.empty with fuel_level := fuel, coords := some moved }

/-- `_Session.forward`: evaluate `turtle.forward()` remotely, parse the
result, and on success apply the movement delta selected by the stored
heading (the `elif` chain falls through, writing nothing, when the
heading is `NULL` or outside 0..3).  Returns the success flag and the
row after the database writes. -/
def forwardStep (row : TurtleRow) (evalResult : J) : Bool × TurtleRow :=
  let success := parseMoveResult evalResult
  if success then
    let row' :=
      match row.heading with
      | none => row
      | some h =>
        if h = 0 then applyMovement row 1 0 0 1
        else if h = 1 then applyMovement row 0 0 1 1
        else if h = 2 then applyMovement row (-1) 0 0 1
        else if h = 3 then applyMovement row 0 0 (-1) 1
        else row
    (true, row')
  else
    (false, row)

/-- The coordinate delta the claim assigns to each heading. -/
def claimForwardDelta (h : Int) : Int × Int × Int :=
  if h = 0 then (1, 0, 0)
  else if h = 1 then (0, 0, 1)
  else if h = 2 then (-1, 0, 0)
  else (0, 0, -1)

/-- C1 counterexample to the claim as stated: a successful `forward`
with stored heading 0 and stored `fuel_level = 0` (a known integer, and
the default written at first connect) leaves the fuel at 0 because
`_apply_movement` computes `max(0, fuel - 1)`; the claim's "decreases
by 1" would require `-1`. -/
theorem forward_fuel_claim_cex :
    (forwardStep
        ⟨some 0, none, some 0, some 0, some 0, some 0, none, none⟩
        (J.bool true)).1 = true ∧
    (forwardStep
        ⟨some 0, none, some 0, some 0, some 0, some 0, none, none⟩
        (J.bool true)).2.fuel_level = some 0 ∧
    (some (0 : Int) ≠ some ((0 : Int) - 1)) := by
  refine ⟨rfl, rfl, by decide⟩

/-- C1 as amended: for a successful `forward` with stored heading
`h ∈ {0,1,2,3}`, the stored coordinates change by the claimed delta and
a known integer fuel level becomes `max 0 (fuel - 1)` — i.e. it
decreases by 1, clamped at zero — while the heading is untouched; an
unsuccessful `forward` leaves the stored record unchanged. -/
theorem forward_delta_amended (row : TurtleRow) (res : J) (h : Int)
    (hh : row.heading = some h) (hr : h = 0 ∨ h = 1 ∨ h = 2 ∨ h = 3) :
    ((forwardStep row res).1 = true →
      (∀ x y z, row.x = some x → row.y = some y → row.z = some z →
        (forwardStep row res).2.x = some (x + (claimForwardDelta h).1) ∧
        (forwardStep row res).2.y = some (y + (claimForwardDelta h).2.1) ∧
        (forwardStep row res).2.z = some (z + (claimForwardDelta h).2.2)) ∧
      (∀ f, row.fuel_level = some f →
        (forwardStep row res).2.fuel_level = some (max 0 (f - 1))) ∧
      (forwardStep row res).2.heading = row.heading) ∧
    ((forwardStep row res).1 = false → (forwardStep row res).2 = row) := by
  by_cases hs : parseMoveResult res = true
  · constructor
    · intro _
      refine ⟨?_, ?_, ?_⟩
      · intro x y z hx hy hz
        rcases hr with h0 | h1 | h2 | h3 <;> subst_vars <;>
          simp [forwardStep, hs, hh, applyMovement, getStateCoords,
            hx, hy, hz, setState, coalesce, StatePatch.empty,
            claimForwardDelta]
      · intro f hf
        rcases hr with h0 | h1 | h2 | h3 <;> subst_vars <;>
          simp [forwardStep, hs, hh, applyMovement, hf, setState,
            coalesce, StatePatch.empty]
      · rcases hr with h0 | h1 | h2 | h3 <;> subst_vars <;>
          simp [forwardStep, hs, hh, applyMovement, setState,
            coalesce, StatePatch.empty]
    · intro hfalse
      simp [forwardStep, hs] at hfalse
  · have hs' : parseMoveResult res = false := by simpa using hs
    constructor
    · intro htrue
      simp [forwardStep, hs'] at htrue
    · intro _
      simp [forwardStep, hs']

/-- Witness for C1 (amended) at a concrete successful `forward`: with
heading 1, coordinates `(4, 70, -2)` and fuel 10, the row moves to
`(4, 70, -1)` with fuel 9. -/
theorem forward_delta_amended_witness :
    (forwardStep
        ⟨some 10, none, some 4, some 70, some (-2), some 1, none, none⟩
        (J.bool true)).2.z = some (-1) ∧
    (forwardStep
        ⟨some 10, none, some 4, some 70, some (-2), some 1, none, none⟩
        (J.bool true)).2.fuel_level = some 9 := by
  have h := forward_delta_amended
    ⟨some 10, none, some 4, some 70, some (-2), some 1, none, none⟩
    (J.bool true) 1 rfl (by norm_num)
  have h1 := (h.1 rfl).1 4 70 (-2) rfl rfl rfl
  have h2 := (h.1 rfl).2.1 10 rfl
  refine ⟨?_, ?_⟩
  · have := h1.2.2
    simpa [claimForwardDelta] using this
  · simpa using h2

/-! ## `main.py`: the routine runner's lifecycle exits -/

/-- How `await routine.run(t, cfg_parsed)` inside `_runner` ends. -/
inductive RunOutcome where
  | finished : RunOutcome
  | cancelled : RunOutcome
  | failed (err : String) : RunOutcome
  deriving DecidableEq

/-- A lifecycle event published over the events WebSocket. -/
structure LifecycleEvent where
  etype : String
  turtle_id : Int
  routine : String
  error : Option String
  deriving DecidableEq, Repr

/-- What `_runner` leaves behind on each exit: the assignment status it
stored, the lifecycle event it published, and whether it re-raised the
exception it caught. -/
structure RunnerExit where
  status : String
  event : LifecycleEvent
  reraised : Bool
  deriving DecidableEq, Repr

/-- The `_runner` wrapper task of `execute_routine` in `main.py`: normal
return publishes `routine_finished`, `asyncio.CancelledError` sets the
assignment to `aborted`, publishes `routine_aborted` and re-raises, and
any other exception sets `failed` and publishes `routine_failed` with
the formatted error. -/
def runnerExit (tid : Int) (name : String) (oc : RunOutcome) : RunnerExit :=
  match oc with
  | .finished =>
      ⟨"finished", ⟨"routine_finished", tid, name, none⟩, false⟩
  | .cancelled =>
      ⟨"aborted", ⟨"routine_aborted", tid, name, none⟩, true⟩
  | .failed err =>
      ⟨"failed", ⟨"routine_failed", tid, name, some err⟩, false⟩

/-- C8: for every routine task spawned by the scheduler that is
subsequently cancelled, the runner sets the assignment status to
`aborted`, publishes a `routine_aborted` event carrying the turtle id
and routine name, and re-raises the cancellation. -/
theorem runner_cancellation_aborts (tid : Int) (name : String)
    (oc : RunOutcome) (hc : oc = .cancelled) :
    (runnerExit tid name oc).status = "aborted" ∧
    (runnerExit tid name oc).event =
      ⟨"routine_aborted", tid, name, none⟩ ∧
    (runnerExit tid name oc).reraised = true := by
  subst hc
  exact ⟨rfl, rfl, rfl⟩

/-- Witness for C8 at a concrete cancelled run. -/
theorem runner_cancellation_aborts_witness :
    (runnerExit 7 "dig_to_coordinate" .cancelled).status = "aborted" ∧
    (runnerExit 7 "dig_to_coordinate" .cancelled).reraised = true := by
  have h := runner_cancellation_aborts 7 "dig_to_coordinate" .cancelled rfl
  exact ⟨h.1, h.2.2⟩

/-! ## `backend/server.py`: the WebSocket hello handshake -/

/-- Outcome of `_ws_handler` up to registration. -/
inductive HelloResult where
  | closed (code : Nat) (reason : String) : HelloResult
  | registered (id : Int) : HelloResult
  deriving DecidableEq, Repr

/-- `isinstance(v, int)` on a decoded JSON value: Python `bool` is a
subclass of `int`, so JSON `true`/`false` also passes this test. -/
def pyIsInstanceInt : Option J → Bool
  | some (.num _) => true
  | some (.bool _) => true
  | _ => false

/-- `int(v)` on a value that passed `isinstance(v, int)`. -/
def pyIntValue : J → Int
  | .num n => n
  | .bool b => if b then 1 else 0
  | _ => 0

/-- `msg.get("type") == "hello"`: only the exact string matches. -/
def typeIsHello : Option J → Bool
  | some (.str s) => s == "hello"
  | _ => false

/-- The acceptance test of `_ws_handler`:
`isinstance(msg, dict) and msg.get("type") == "hello" and
isinstance(msg.get("computer_id"), int)`. -/
def codeAcceptsHello : J → Bool
  | .obj kvs =>
      typeIsHello (dictGet kvs "type") &&
        pyIsInstanceInt (dictGet kvs "computer_id")
  | _ => false

/-- The computer id extracted from an accepted hello frame. -/
def helloId : J → Int
  | .obj kvs => pyIntValue ((dictGet kvs "computer_id").getD J.null)
  | _ => 0

/-- Assoc-list lookup in the connected-agents map. -/
def lookupClient (clients : List (Int × Nat)) (id : Int) : Option Nat :=
  (clients.find? (fun p => p.1 == id)).map (·.2)

/-- `self._clients[comp_id] = turtle`: dict assignment, evicting any
prior binding for the same id. -/
def storeClient (clients : List (Int × Nat)) (id : Int) (agent : Nat) :
    List (Int × Nat) :=
  clients.filter (fun p => p.1 != id) ++ [(id, agent)]

/-- `_ws_handler` up to registration: `frame = none` stands for the
10-second `recv` deadline firing or `json.loads` raising (the shared
`except` clause); otherwise the decoded first frame is checked and, if
accepted, an agent is constructed for the socket and stored under the
announced id. -/
def wsHandshake (frame : Option J) (clients : List (Int × Nat))
    (agent : Nat) : HelloResult × List (Int × Nat) :=
  match frame with
  | none => (.closed 1002 "invalid hello", clients)
  | some msg =>
      if codeAcceptsHello msg then
        (.registered (helloId msg), storeClient clients (helloId msg) agent)
      else
        (.closed 1002 "invalid hello", clients)

/-- The hello-shape predicate as the claim words it: a JSON object with
`type = "hello"` and an integer (JSON number) `computer_id`. -/
def claimValidHello : J → Bool
  | .obj kvs =>
      typeIsHello (dictGet kvs "type") &&
        (match dictGet kvs "computer_id" with
         | some (.num _) => true
         | _ => false)
  | _ => false

/-- C7 counterexample to the claim as stated: the frame
`{"type":"hello","computer_id":true}` deviates from the required shape
(its `computer_id` is a JSON boolean, not an integer), yet the handler
registers an agent under id 1 instead of closing with 1002, because
Python's `isinstance(True, int)` holds. -/
theorem ws_hello_bool_id_cex :
    claimValidHello
      (J.obj [("type", J.str "hello"), ("computer_id", J.bool true)])
      = false ∧
    wsHandshake
      (some (J.obj [("type", J.str "hello"), ("computer_id", J.bool true)]))
      [] 0
      = (.registered 1, [(1, 0)]) := by
  exact ⟨rfl, rfl⟩

/-- Filtering out the bindings of a different key does not change what
`find?` returns for ours. -/
theorem find_filter_ne (l : List (Int × Nat)) (cid id : Int)
    (hne : id ≠ cid) :
    (l.filter (fun p => p.1 != cid)).find? (fun p => p.1 == id)
      = l.find? (fun p => p.1 == id) := by
  induction l with
  | nil => rfl
  | cons p rest ih =>
      by_cases hp : p.1 = cid
      · have h1 : (p.1 != cid) = false := by simp [hp]
        have h2 : (p.1 == id) = false := by
          simp only [beq_eq_false_iff_ne, ne_eq, hp]
          exact fun h => hne h.symm
        simp [List.filter_cons, h1, List.find?_cons, h2, ih]
      · have h1 : (p.1 != cid) = true := by simp [hp]
        by_cases hq : p.1 = id
        · have h2 : (p.1 == id) = true := by simp [hq]
          simp [List.filter_cons, h1, List.find?_cons, h2]
        · have h2 : (p.1 == id) = false := by simp [hq]
          simp [List.filter_cons, h1, List.find?_cons, h2, ih]

/-- `find?` by one key ignores entries filtered out by a different key. -/
theorem lookup_store_other (clients : List (Int × Nat)) (cid id : Int)
    (agent : Nat) (hne : id ≠ cid) :
    lookupClient (storeClient clients cid agent) id =
      lookupClient clients id := by
  have hcid : ((cid == id) : Bool) = false := by
    simp only [beq_eq_false_iff_ne, ne_eq]
    exact fun h => hne h.symm
  simp only [lookupClient, storeClient, List.find?_append,
    find_filter_ne clients cid id hne, List.find?_cons, hcid,
    List.find?_nil, Option.or_none]

/-- Storing a binding makes it the one the map returns. -/
theorem lookup_store_self (clients : List (Int × Nat)) (cid : Int)
    (agent : Nat) :
    lookupClient (storeClient clients cid agent) cid = some agent := by
  have h1 : (clients.filter (fun p => p.1 != cid)).find?
      (fun p => p.1 == cid) = none := by
    rw [List.find?_eq_none]
    intro x hx
    have hmem := List.of_mem_filter hx
    simpa using hmem
  simp [lookupClient, storeClient, List.find?_append, h1, List.find?_cons]

/-- C7 as amended: a missing/undecodable first frame, or a decoded frame
failing the handler's test — a JSON object with `type = "hello"` and a
`computer_id` passing Python's `isinstance(·, int)`, which JSON booleans
also pass (`true` ↦ 1, `false` ↦ 0) — closes the connection with code
1002 and reason "invalid hello" and registers nothing; an accepted frame
registers an agent under the announced id, evicting any prior mapping
for that id and leaving every other id's mapping unchanged. -/
theorem ws_handshake_amended (frame : Option J) (clients : List (Int × Nat))
    (agent : Nat) :
    (frame = none →
      (wsHandshake frame clients agent).1 = .closed 1002 "invalid hello" ∧
      (wsHandshake frame clients agent).2 = clients) ∧
    (∀ msg, frame = some msg → codeAcceptsHello msg = false →
      (wsHandshake frame clients agent).1 = .closed 1002 "invalid hello" ∧
      (wsHandshake frame clients agent).2 = clients) ∧
    (∀ msg, frame = some msg → codeAcceptsHello msg = true →
      (wsHandshake frame clients agent).1 = .registered (helloId msg) ∧
      lookupClient (wsHandshake frame clients agent).2 (helloId msg)
        = some agent ∧
      (∀ id, id ≠ helloId msg →
        lookupClient (wsHandshake frame clients agent).2 id
          = lookupClient clients id)) := by
  refine ⟨?_, ?_, ?_⟩
  · rintro rfl; exact ⟨rfl, rfl⟩
  · rintro msg rfl hrej
    simp [wsHandshake, hrej]
  · rintro msg rfl hacc
    refine ⟨by simp [wsHandshake, hacc], ?_, ?_⟩
    · simp only [wsHandshake, hacc, if_pos]
      exact lookup_store_self clients (helloId msg) agent
    · intro id hid
      simp only [wsHandshake, hacc, if_pos]
      exact lookup_store_other clients (helloId msg) id agent hid

/-- Witness for C7 (amended) at concrete frames: a frame with a string
`computer_id` is rejected with 1002, and a well-formed hello for id 3
registers the agent while evicting the old binding for 3 and keeping
the one for 4. -/
theorem ws_handshake_amended_witness :
    (wsHandshake
        (some (J.obj [("type", J.str "hello"),
                      ("computer_id", J.str "3")]))
        [(3, 10)] 11).1 = .closed 1002 "invalid hello" ∧
    lookupClient
      (wsHandshake
          (some (J.obj [("type", J.str "hello"), ("computer_id", J.num 3)]))
          [(3, 10), (4, 12)] 11).2 3 = some 11 ∧
    lookupClient
      (wsHandshake
          (some (J.obj [("type", J.str "hello"), ("computer_id", J.num 3)]))
          [(3, 10), (4, 12)] 11).2 4 = some 12 := by
  refine ⟨?_, ?_, ?_⟩
  · exact ((ws_handshake_amended
        (some (J.obj [("type", J.str "hello"), ("computer_id", J.str "3")]))
        [(3, 10)] 11).2.1 _ rfl rfl).1
  · have h := ((ws_handshake_amended
        (some (J.obj [("type", J.str "hello"), ("computer_id", J.num 3)]))
        [(3, 10), (4, 12)] 11).2.2 _ rfl rfl).2.1
    simpa [helloId, dictGet, pyIntValue] using h
  · have h := ((ws_handshake_amended
        (some (J.obj [("type", J.str "hello"), ("computer_id", J.num 3)]))
        [(3, 10), (4, 12)] 11).2.2 _ rfl rfl).2.2 4 (by decide)
    simpa using h

/-! ## `backend/turtle.py`: `_evaluate_inspect_return` -/

/-- Python's `k in container` for the containers a decoded JSON value
can be: key membership for dicts, element equality for lists, substring
for strings; any other value raises `TypeError`. -/
def pyContains (container : J) (k : String) : Except String Bool :=
  match container with
  | .obj kvs => .ok (dictHasKey kvs k)
  | .arr xs => .ok (xs.any fun v =>
      match v with
      | .str s => s == k
      | _ => false)
  | .str s => .ok (decide (k.data <:+: s.data))
  | _ => .error "TypeError: argument is not iterable"

/-- `_evaluate_inspect_return(res)`: a falsy `ok` or falsy `data` yields
`(False, None)`; otherwise the result dict keeps the keys `name`,
`c:ores` and `minecraft:mineable/pickaxe` in that order, the name
defaulting to "unknown", and each tag flag is set to `True` when the
key test `tag in raw_tags` succeeds.  A truthy non-dict `data` would
raise `AttributeError` in Python (`raw_data.get`). -/
def evaluateInspectReturn (res : List (String × J)) :
    Except String (Bool × J) :=
  let ok := truthy ((dictGet res "ok").getD J.null)
  if !ok then .ok (false, J.null)
  else
    let rawData := (dictGet res "data").getD J.null
    if !truthy rawData then .ok (false, J.null)
    else
      match rawData with
      | .obj d => do
          let nameV := dictGetD d "name" (J.str "unknown")
          let rawTags := dictGetD d "tags" (J.obj [])
          let o1 ← pyContains rawTags "c:ores"
          let o2 ← pyContains rawTags "minecraft:mineable/pickaxe"
          pure (true, J.obj [("name", nameV),
                            ("c:ores", J.bool o1),
                            ("minecraft:mineable/pickaxe", J.bool o2)])
      | _ => .error "AttributeError: value has no attribute get"

/-- The tag flag as the claim words it: true exactly when the tag is
present in the raw tags with a truthy value. -/
def claimTagFlag (tags : List (String × J)) (k : String) : Bool :=
  match dictGet tags k with
  | some v => truthy v
  | none => false

/-- C4 counterexample to the claim as stated: a reply whose tags dict
carries `"c:ores": false` — present but falsy — is normalized with
`"c:ores": true`, because the code only tests key presence
(`tag in raw_tags`); the claim's truthy-value reading demands `false`
here. -/
theorem inspect_tag_presence_cex :
    evaluateInspectReturn
      [("ok", J.bool true),
       ("data", J.obj [("name", J.str "minecraft:stone"),
                       ("tags", J.obj [("c:ores", J.bool false)])])]
      = .ok (true, J.obj [("name", J.str "minecraft:stone"),
                          ("c:ores", J.bool true),
                          ("minecraft:mineable/pickaxe", J.bool false)]) ∧
    claimTagFlag [("c:ores", J.bool false)] "c:ores" = false := by
  exact ⟨rfl, rfl⟩

/-- C4 as amended: for a reply `{ok, data: {name, tags}}` with a
non-empty data dict and a tags dict, the normalization yields
`{name, "c:ores", "minecraft:mineable/pickaxe"}` where each tag boolean
is true exactly when the tag key is present in the raw tags — whatever
its value — and false when absent; when `ok` is false the result is
`(False, None)`, and no exception escapes on these shapes. -/
theorem inspect_normalization_amended (res d tags : List (String × J))
    (hok : dictGet res "ok" = some (J.bool true))
    (hdata : dictGet res "data" = some (J.obj d))
    (hne : d ≠ [])
    (htags : dictGet d "tags" = some (J.obj tags)) :
    evaluateInspectReturn res
      = .ok (true, J.obj
          [("name", dictGetD d "name" (J.str "unknown")),
           ("c:ores", J.bool (dictHasKey tags "c:ores")),
           ("minecraft:mineable/pickaxe",
             J.bool (dictHasKey tags "minecraft:mineable/pickaxe"))]) ∧
    (∀ res2 : List (String × J), dictGet res2 "ok" = some (J.bool false) →
      evaluateInspectReturn res2 = .ok (false, J.null)) := by
  constructor
  · have hd : truthy (J.obj d) = true := by
      simp [truthy, List.isEmpty_iff, hne]
    have hd2 : (dictGet res "data").getD J.null = J.obj d := by
      rw [hdata]; rfl
    have hok2 : (dictGet res "ok").getD J.null = J.bool true := by
      rw [hok]; rfl
    have hie : d.isEmpty = false := by
      simp [List.isEmpty_iff, hne]
    simp only [evaluateInspectReturn, hok2, hd2, truthy, hie,
      Bool.not_true, Bool.not_false, Bool.false_eq_true, if_false,
      dictGetD, htags, pyContains, Option.getD_some]
    rfl
  · intro res2 h2
    have hok2 : (dictGet res2 "ok").getD J.null = J.bool false := by
      rw [h2]; rfl
    simp [evaluateInspectReturn, hok2, truthy]

/-- Witness for C4 (amended) at a concrete ore reply: a diamond-ore
inspect reply with both tags present (one of them with value `true`,
one with value `1`) normalizes to both flags true; a failed inspect
normalizes to `(False, None)`. -/
theorem inspect_normalization_amended_witness :
    evaluateInspectReturn
      [("ok", J.bool true),
       ("data", J.obj
          [("name", J.str "minecraft:diamond_ore"),
           ("tags", J.obj [("c:ores", J.bool true),
                           ("minecraft:mineable/pickaxe", J.num 1)])])]
      = .ok (true, J.obj
          [("name", J.str "minecraft:diamond_ore"),
           ("c:ores", J.bool true),
           ("minecraft:mineable/pickaxe", J.bool true)]) ∧
    evaluateInspectReturn [("ok", J.bool false)] = .ok (false, J.null) := by
  have h := inspect_normalization_amended
    [("ok", J.bool true),
     ("data", J.obj
        [("name", J.str "minecraft:diamond_ore"),
         ("tags", J.obj [("c:ores", J.bool true),
                         ("minecraft:mineable/pickaxe", J.num 1)])])]
    [("name", J.str "minecraft:diamond_ore"),
     ("tags", J.obj [("c:ores", J.bool true),
                     ("minecraft:mineable/pickaxe", J.num 1)])]
    [("c:ores", J.bool true), ("minecraft:mineable/pickaxe", J.num 1)]
    rfl rfl (by simp) rfl
  exact ⟨h.1, h.2 [("ok", J.bool false)] rfl⟩

/-! ## `backend/turtle.py`: `_evaluate_inventory_returns` and
`get_inventory_details` -/

/-- `_evaluate_inventory_returns(res)`: like the inspect normalizer but
with `name`, `displayName`, `count` and five tag flags, in the result
dict's key order. -/
def evaluateInventoryReturns (res : List (String × J)) :
    Except String (Bool × J) :=
  let ok := truthy ((dictGet res "ok").getD J.null)
  if !ok then .ok (false, J.null)
  else
    let rawData := (dictGet res "data").getD J.null
    if !truthy rawData then .ok (false, J.null)
    else
      match rawData with
      | .obj d => do
          let nameV := dictGetD d "name" (J.str "unknown")
          let displayV := dictGetD d "displayName" (J.str "Unknown")
          let countV := dictGetD d "count" (J.num 0)
          let rawTags := dictGetD d "tags" (J.obj [])
          let t1 ← pyContains rawTags "c:ores"
          let t2 ← pyContains rawTags "c:gems"
          let t3 ← pyContains rawTags "c:stones"
          let t4 ← pyContains rawTags "c:chests"
          let t5 ← pyContains rawTags "minecraft:building_blocks"
          pure (true, J.obj
            [("name", nameV), ("displayName", displayV), ("count", countV),
             ("c:ores", J.bool t1), ("c:gems", J.bool t2),
             ("c:stones", J.bool t3), ("c:chests", J.bool t4),
             ("minecraft:building_blocks", J.bool t5)])
      | _ => .error "AttributeError: value has no attribute get"

/-- `d[k] = v` on a JSON object: overwrite the first binding in place,
append the key at the end when absent. -/
def setKeyList (kvs : List (String × J)) (k : String) (v : J) :
    List (String × J) :=
  match kvs with
  | [] => [(k, v)]
  | (k0, v0) :: rest =>
      if k0 == k then (k0, v) :: rest
      else (k0, v0) :: setKeyList rest k v

/-- `processed_item["slot"] = slot` (only ever applied to a dict). -/
def jObjSetKey (j : J) (k : String) (v : J) : J :=
  match j with
  | .obj kvs => .obj (setKeyList kvs k v)
  | other => other

/-- `processed_inventory[slot] = value`: Python dict assignment on the
slot map, preserving insertion order and appending new keys. -/
def storeSlot (m : List (Nat × Option J)) (k : Nat) (v : Option J) :
    List (Nat × Option J) :=
  match m with
  | [] => [(k, v)]
  | (k0, v0) :: rest =>
      if k0 = k then (k0, v) :: rest
      else (k0, v0) :: storeSlot rest k v

/-- Lookup in the slot map. -/
def lookupSlot (m : List (Nat × Option J)) (k : Nat) : Option (Option J) :=
  (m.find? (fun p => p.1 == k)).map (·.2)

/-- What processing one array entry contributes to its slot: `none`
when the entry is `None` or the normalizer rejected it (the slot keeps
its current value), `some v` when the normalized item (with its
appended `slot` key) is stored. -/
def processOneItem (item : J) (slot : Nat) : Except String (Option J) :=
  match item with
  | J.null => .ok none
  | _ => do
      let (ok, processed) ←
        evaluateInventoryReturns [("ok", J.bool true), ("data", item)]
      if ok && truthy processed then
        .ok (some (jObjSetKey processed "slot" (J.num slot)))
      else
        .ok none

/-- The `for i, item in enumerate(raw_inventory)` loop: entry at
0-indexed position `idx` is stored under slot `i + idx + 1`. -/
def processItems (items : List J) (i : Nat) (m : List (Nat × Option J)) :
    Except String (List (Nat × Option J)) :=
  match items with
  | [] => .ok m
  | item :: rest => do
      let w ← processOneItem item (i + 1)
      match w with
      | some v => processItems rest (i + 1) (storeSlot m (i + 1) (some v))
      | none => processItems rest (i + 1) m

/-- The initial map `{1: None, ..., 16: None}` in key order. -/
def initialSlots : List (Nat × Option J) :=
  (List.range 16).map (fun i => (i + 1, (none : Option J)))

/-- `get_inventory_details` after the reply arrived: build the 16-slot
map, walk a list reply through the normalizer, persist and return the
map; any exception inside the `try` makes the whole call return `None`
(and nothing is persisted); a non-list reply leaves all slots empty. -/
def getInventoryDetails (raw : J) : Option (List (Nat × Option J)) :=
  match raw with
  | .arr items =>
      match processItems items 0 initialSlots with
      | .ok m => some m
      | .error _ => none
  | _ => some initialSlots

/-! C5 helper lemmas about the slot map. -/

/-- Storing under an existing key keeps the key list unchanged. -/
theorem storeSlot_keys_mem (m : List (Nat × Option J)) (k : Nat)
    (v : Option J) (hk : k ∈ m.map Prod.fst) :
    (storeSlot m k v).map Prod.fst = m.map Prod.fst := by
  induction m with
  | nil => simp at hk
  | cons p rest ih =>
      by_cases hp : p.1 = k
      · simp [storeSlot, hp]
      · have hk' : k ∈ rest.map Prod.fst := by
          rcases (by simpa using hk) with h | h
          · exact absurd h.symm hp
          · simpa using h
        simp [storeSlot, hp, ih hk']

/-- Storing a binding makes it what the slot map returns. -/
theorem lookupSlot_store_self (m : List (Nat × Option J)) (k : Nat)
    (v : Option J) :
    lookupSlot (storeSlot m k v) k = some v := by
  induction m with
  | nil => simp [storeSlot, lookupSlot, List.find?]
  | cons p rest ih =>
      by_cases hp : p.1 = k
      · simp [storeSlot, hp, lookupSlot, List.find?_cons]
      · have hb : (p.1 == k) = false := by simp [hp]
        simp only [storeSlot, if_neg hp, lookupSlot, List.find?_cons, hb]
        exact ih

/-- Storing one binding leaves every other slot's lookup unchanged. -/
theorem lookupSlot_store_other (m : List (Nat × Option J)) (k k' : Nat)
    (v : Option J) (hne : k' ≠ k) :
    lookupSlot (storeSlot m k v) k' = lookupSlot m k' := by
  have hkk : (k == k') = false := by
    simp only [beq_eq_false_iff_ne, ne_eq]
    exact fun h => hne h.symm
  induction m with
  | nil => simp [storeSlot, lookupSlot, List.find?, hkk]
  | cons p rest ih =>
      by_cases hp : p.1 = k
      · rw [show storeSlot (p :: rest) k v = (p.1, v) :: rest by
          simp [storeSlot, hp]]
        have hb : (p.1 == k') = false := by
          rw [hp]; exact hkk
        simp [lookupSlot, List.find?_cons, hb]
      · rw [show storeSlot (p :: rest) k v = p :: storeSlot rest k v by
          simp [storeSlot, hp]]
        by_cases hq : p.1 = k'
        · have hb : (p.1 == k') = true := by simp [hq]
          simp [lookupSlot, List.find?_cons, hb]
        · have hb : (p.1 == k') = false := by simp [hq]
          simp only [lookupSlot, List.find?_cons, hb]
          exact ih

/-- The enumerate loop never touches slots at or below the running
offset. -/
theorem processItems_low_slots (items : List J) :
    ∀ (i : Nat) (m m' : List (Nat × Option J)),
      processItems items i m = .ok m' →
      ∀ k, k ≤ i → lookupSlot m' k = lookupSlot m k := by
  induction items with
  | nil =>
      intro i m m' h k _
      simp only [processItems] at h
      cases h
      rfl
  | cons item rest ih =>
      intro i m m' h k hk
      simp only [processItems] at h
      cases hw : processOneItem item (i + 1) with
      | error e => rw [hw, exceptBindErr] at h; cases h
      | ok w =>
          rw [hw, exceptBindOk] at h
          cases w with
          | some v =>
              have h1 := ih (i + 1) _ _ h k (Nat.le_succ_of_le hk)
              rw [h1]
              exact lookupSlot_store_other m (i + 1) k (some v)
                (by omega)
          | none =>
              exact ih (i + 1) _ _ h k (Nat.le_succ_of_le hk)

/-- The enumerate loop keeps the key list unchanged as long as every
slot it writes already exists in the map. -/
theorem processItems_keys (items : List J) :
    ∀ (i : Nat) (m m' : List (Nat × Option J)),
      processItems items i m = .ok m' →
      (∀ idx, idx < items.length → (i + idx + 1) ∈ m.map Prod.fst) →
      m'.map Prod.fst = m.map Prod.fst := by
  induction items with
  | nil =>
      intro i m m' h _
      simp only [processItems] at h
      cases h
      rfl
  | cons item rest ih =>
      intro i m m' h hcover
      simp only [processItems] at h
      cases hw : processOneItem item (i + 1) with
      | error e => rw [hw, exceptBindErr] at h; cases h
      | ok w =>
          rw [hw, exceptBindOk] at h
          cases w with
          | some v =>
              have hmem : (i + 1) ∈ m.map Prod.fst := by
                have := hcover 0 (by simp)
                simpa using this
              have hkeys := storeSlot_keys_mem m (i + 1) (some v) hmem
              have hcover' : ∀ idx, idx < rest.length →
                  (i + 1 + idx + 1) ∈
                    (storeSlot m (i + 1) (some v)).map Prod.fst := by
                intro idx hidx
                rw [hkeys]
                have := hcover (idx + 1) (by simpa using Nat.succ_lt_succ hidx)
                convert this using 2
                omega
              rw [ih (i + 1) _ _ h hcover', hkeys]
          | none =>
              have hcover' : ∀ idx, idx < rest.length →
                  (i + 1 + idx + 1) ∈ m.map Prod.fst := by
                intro idx hidx
                have := hcover (idx + 1) (by simpa using Nat.succ_lt_succ hidx)
                convert this using 2
                omega
              exact ih (i + 1) _ _ h hcover'

/-- The slot written for 0-indexed position `idx` is `i + idx + 1`, and
its final value is determined by processing that entry alone. -/
theorem processItems_slot_value (items : List J) :
    ∀ (i : Nat) (m m' : List (Nat × Option J)),
      processItems items i m = .ok m' →
      ∀ idx, idx < items.length →
      ∀ w, processOneItem (items.getD idx J.null) (i + idx + 1) = .ok w →
        lookupSlot m' (i + idx + 1) =
          (match w with
           | some v => some (some v)
           | none => lookupSlot m (i + idx + 1)) := by
  induction items with
  | nil => intro i m m' _ idx hidx; simp at hidx
  | cons item rest ih =>
      intro i m m' h idx hidx w hw1
      simp only [processItems] at h
      cases hw : processOneItem item (i + 1) with
      | error e => rw [hw, exceptBindErr] at h; cases h
      | ok w0 =>
          rw [hw, exceptBindOk] at h
          cases idx with
          | zero =>
              have hww : w0 = w := by
                have : processOneItem item (i + 0 + 1) = .ok w := hw1
                rw [show i + 0 + 1 = i + 1 by omega] at this
                have := hw.symm.trans this
                exact Except.ok.inj this
              subst hww
              cases w0 with
              | some v =>
                  have hlow := processItems_low_slots rest (i + 1) _ _ h
                    (i + 1) (le_refl _)
                  rw [show i + 0 + 1 = i + 1 by omega, hlow,
                    lookupSlot_store_self]
              | none =>
                  have hlow := processItems_low_slots rest (i + 1) _ _ h
                    (i + 1) (le_refl _)
                  rw [show i + 0 + 1 = i + 1 by omega, hlow]
          | succ idx' =>
              have hidx' : idx' < rest.length := by simpa using hidx
              have hget : (rest.getD idx' J.null)
                  = ((item :: rest).getD (idx' + 1) J.null) := by simp
              have hw1' : processOneItem (rest.getD idx' J.null)
                  ((i + 1) + idx' + 1) = .ok w := by
                rw [hget, show (i + 1) + idx' + 1 = i + (idx' + 1) + 1 by omega]
                exact hw1
              cases w0 with
              | some v =>
                  have := ih (i + 1) _ _ h idx' hidx' w hw1'
                  rw [show i + (idx' + 1) + 1 = (i + 1) + idx' + 1 by omega,
                    this]
                  cases w with
                  | some v2 => rfl
                  | none =>
                      exact lookupSlot_store_other m (i + 1)
                        ((i + 1) + idx' + 1) (some v) (by omega)
              | none =>
                  have := ih (i + 1) _ _ h idx' hidx' w hw1'
                  rw [show i + (idx' + 1) + 1 = (i + 1) + idx' + 1 by omega,
                    this]

/-- Normalizing one well-shaped non-null entry: name, displayName and
count with their defaults, the five tag flags by key presence, and the
`slot` key appended last. -/
theorem processOneItem_wf (d t : List (String × J)) (slot : Nat)
    (hne : d ≠ []) (htags : dictGet d "tags" = some (J.obj t)) :
    processOneItem (J.obj d) slot = .ok (some (J.obj
      [("name", dictGetD d "name" (J.str "unknown")),
       ("displayName", dictGetD d "displayName" (J.str "Unknown")),
       ("count", dictGetD d "count" (J.num 0)),
       ("c:ores", J.bool (dictHasKey t "c:ores")),
       ("c:gems", J.bool (dictHasKey t "c:gems")),
       ("c:stones", J.bool (dictHasKey t "c:stones")),
       ("c:chests", J.bool (dictHasKey t "c:chests")),
       ("minecraft:building_blocks",
         J.bool (dictHasKey t "minecraft:building_blocks")),
       ("slot", J.num slot)])) := by
  have hie : d.isEmpty = false := by
    simp [List.isEmpty_iff, hne]
  have hok2 : (dictGet [("ok", J.bool true), ("data", J.obj d)]
      "ok").getD J.null = J.bool true := rfl
  have hd2 : (dictGet [("ok", J.bool true), ("data", J.obj d)]
      "data").getD J.null = J.obj d := rfl
  simp only [processOneItem, evaluateInventoryReturns, hok2, hd2, truthy,
    hie, Bool.not_true, Bool.not_false, Bool.false_eq_true, if_false,
    dictGetD, htags, Option.getD_some, pyContains, exceptBindOk,
    exceptPureEq]
  rfl

/-- `processItems` succeeds when every entry's own processing does. -/
theorem processItems_ok_of (items : List J) :
    ∀ (i : Nat) (m : List (Nat × Option J)),
      (∀ idx, idx < items.length →
        ∃ w, processOneItem (items.getD idx J.null) (i + idx + 1) = .ok w) →
      ∃ m', processItems items i m = .ok m' := by
  induction items with
  | nil => intro i m _; exact ⟨m, rfl⟩
  | cons item rest ih =>
      intro i m hwf
      obtain ⟨w0, hw0⟩ := hwf 0 (by simp)
      have hw0' : processOneItem item (i + 1) = .ok w0 := by
        simpa using hw0
      have hrest : ∀ idx, idx < rest.length →
          ∃ w, processOneItem (rest.getD idx J.null)
            ((i + 1) + idx + 1) = .ok w := by
        intro idx hidx
        obtain ⟨w, hw⟩ := hwf (idx + 1) (by simpa using Nat.succ_lt_succ hidx)
        refine ⟨w, ?_⟩
        have : (item :: rest).getD (idx + 1) J.null = rest.getD idx J.null := by
          simp
        rw [← this, show (i + 1) + idx + 1 = i + (idx + 1) + 1 by omega]
        exact hw
      cases w0 with
      | some v =>
          obtain ⟨m', hm'⟩ := ih (i + 1) (storeSlot m (i + 1) (some v)) hrest
          exact ⟨m', by simp only [processItems, hw0', exceptBindOk]; exact hm'⟩
      | none =>
          obtain ⟨m', hm'⟩ := ih (i + 1) m hrest
          exact ⟨m', by simp only [processItems, hw0', exceptBindOk]; exact hm'⟩

/-- The key list of the initial 16-slot map. -/
theorem initialSlots_keys :
    initialSlots.map Prod.fst = (List.range 16).map (· + 1) := by
  simp [initialSlots, List.map_map]

/-- Every slot 1..16 starts out present and empty. -/
theorem lookup_initial_slots (idx : Nat) (h : idx < 16) :
    lookupSlot initialSlots (idx + 1) = some none := by
  interval_cases idx <;> rfl

/-- C5 counterexample to the claim as stated: a 17-entry reply whose
final entry is a non-null item makes `get_inventory_details` store a
17th key, so the persisted mapping does not have exactly the 16 slot
keys 1..16. -/
theorem inventory_extra_key_cex :
    (getInventoryDetails (J.arr (List.replicate 16 J.null ++
        [J.obj [("name", J.str "minecraft:cobblestone"),
                ("displayName", J.str "Cobblestone"),
                ("count", J.num 1),
                ("tags", J.obj [])]]))).map (fun m => m.map Prod.fst)
      = some ((List.range 17).map (· + 1)) ∧
    (List.range 17).map (· + 1) ≠ (List.range 16).map (· + 1) := by
  exact ⟨rfl, by decide⟩

/-- C5 as amended: for every reply whose array form has at most 16
entries (the firmware contract) and whose non-null entries are dicts,
the normalized and persisted mapping has exactly the 16 slot keys
1..16 (a longer reply adds keys beyond 16 for its non-null tail
entries); 0-indexed array position `idx` maps to slot `idx+1`; a null
entry leaves that slot null; a non-null dict entry yields an object
carrying `name`, `displayName`, `count`, the five tag booleans and its
`slot`; and a non-list reply leaves all 16 slots null. -/
theorem inventory_normalization_amended (items : List J)
    (hlen : items.length ≤ 16)
    (hwf : ∀ idx, idx < items.length →
      ∃ w, processOneItem (items.getD idx J.null) (idx + 1) = .ok w) :
    ∃ m, getInventoryDetails (J.arr items) = some m ∧
      m.map Prod.fst = (List.range 16).map (· + 1) ∧
      (∀ idx, idx < items.length → items.getD idx J.null = J.null →
        lookupSlot m (idx + 1) = some none) ∧
      (∀ idx, idx < items.length → ∀ d t,
        items.getD idx J.null = J.obj d → d ≠ [] →
        dictGet d "tags" = some (J.obj t) →
        lookupSlot m (idx + 1) = some (some (J.obj
          [("name", dictGetD d "name" (J.str "unknown")),
           ("displayName", dictGetD d "displayName" (J.str "Unknown")),
           ("count", dictGetD d "count" (J.num 0)),
           ("c:ores", J.bool (dictHasKey t "c:ores")),
           ("c:gems", J.bool (dictHasKey t "c:gems")),
           ("c:stones", J.bool (dictHasKey t "c:stones")),
           ("c:chests", J.bool (dictHasKey t "c:chests")),
           ("minecraft:building_blocks",
             J.bool (dictHasKey t "minecraft:building_blocks")),
           ("slot", J.num (idx + 1))]))) ∧
      (∀ raw : J, (∀ xs, raw ≠ J.arr xs) →
        getInventoryDetails raw = some initialSlots) := by
  have hwf0 : ∀ idx, idx < items.length →
      ∃ w, processOneItem (items.getD idx J.null) (0 + idx + 1) = .ok w := by
    intro idx hidx
    simpa using hwf idx hidx
  obtain ⟨m, hm⟩ := processItems_ok_of items 0 initialSlots hwf0
  refine ⟨m, ?_, ?_, ?_, ?_, ?_⟩
  · simp [getInventoryDetails, hm]
  · have hcover : ∀ idx, idx < items.length →
        (0 + idx + 1) ∈ initialSlots.map Prod.fst := by
      intro idx hidx
      rw [initialSlots_keys]
      simp only [List.mem_map, List.mem_range]
      exact ⟨idx, by omega, by omega⟩
    rw [processItems_keys items 0 initialSlots m hm hcover, initialSlots_keys]
  · intro idx hidx hnull
    have hone : processOneItem (items.getD idx J.null) (0 + idx + 1)
        = .ok none := by
      rw [hnull]; rfl
    have := processItems_slot_value items 0 initialSlots m hm idx hidx
      none hone
    rw [show 0 + idx + 1 = idx + 1 by omega] at this
    rw [this]
    exact lookup_initial_slots idx (by omega)
  · intro idx hidx d t hobj hdne htags
    have hone : processOneItem (items.getD idx J.null) (0 + idx + 1)
        = .ok (some (J.obj
          [("name", dictGetD d "name" (J.str "unknown")),
           ("displayName", dictGetD d "displayName" (J.str "Unknown")),
           ("count", dictGetD d "count" (J.num 0)),
           ("c:ores", J.bool (dictHasKey t "c:ores")),
           ("c:gems", J.bool (dictHasKey t "c:gems")),
           ("c:stones", J.bool (dictHasKey t "c:stones")),
           ("c:chests", J.bool (dictHasKey t "c:chests")),
           ("minecraft:building_blocks",
             J.bool (dictHasKey t "minecraft:building_blocks")),
           ("slot", J.num (idx + 1))])) := by
      rw [hobj, show 0 + idx + 1 = idx + 1 by omega]
      exact processOneItem_wf d t (idx + 1) hdne htags
    have hval := processItems_slot_value items 0 initialSlots m hm idx hidx
      _ hone
    rw [show 0 + idx + 1 = idx + 1 by omega] at hval
    exact hval
  · intro raw hraw
    cases raw with
    | arr xs => exact absurd rfl (hraw xs)
    | null => rfl
    | bool b => rfl
    | num n => rfl
    | str s => rfl
    | obj kvs => rfl

/-- Witness for C5 (amended) at the spec's S3 scenario: a reply with a
coal item at 0-indexed position 1 yields a mapping with exactly keys
1..16, slot 2 holding the normalized coal item with `"c:ores": true`
and the other four flags false, and slot 1 null. -/
theorem inventory_normalization_amended_witness :
    ∃ m, getInventoryDetails (J.arr
        [J.null,
         J.obj [("name", J.str "minecraft:coal"),
                ("displayName", J.str "Coal"),
                ("count", J.num 32),
                ("tags", J.obj [("c:ores", J.bool true)])],
         J.null]) = some m ∧
      m.map Prod.fst = (List.range 16).map (· + 1) ∧
      lookupSlot m 1 = some none ∧
      lookupSlot m 2 = some (some (J.obj
        [("name", J.str "minecraft:coal"),
         ("displayName", J.str "Coal"),
         ("count", J.num 32),
         ("c:ores", J.bool true),
         ("c:gems", J.bool false),
         ("c:stones", J.bool false),
         ("c:chests", J.bool false),
         ("minecraft:building_blocks", J.bool false),
         ("slot", J.num 2)])) := by
  obtain ⟨m, hm, hkeys, hnull, hobj, _⟩ := inventory_normalization_amended
    [J.null,
     J.obj [("name", J.str "minecraft:coal"),
            ("displayName", J.str "Coal"),
            ("count", J.num 32),
            ("tags", J.obj [("c:ores", J.bool true)])],
     J.null]
    (by simp)
    (by
      intro idx hidx
      simp only [List.length_cons, List.length_nil] at hidx
      interval_cases idx
      · exact ⟨none, rfl⟩
      · exact ⟨_, rfl⟩
      · exact ⟨none, rfl⟩)
  refine ⟨m, hm, hkeys, ?_, ?_⟩
  · exact hnull 0 (by simp) rfl
  · have h2 := hobj 1 (by simp)
      [("name", J.str "minecraft:coal"),
       ("displayName", J.str "Coal"),
       ("count", J.num 32),
       ("tags", J.obj [("c:ores", J.bool true)])]
      [("c:ores", J.bool true)]
      rfl (by simp) rfl
    simpa using h2

/-! ## `routines/subroutines.py`: `dump_to_left_chest` -/

/-- `Turtle._Session.get_item_count` in `backend/turtle.py` declares no
slot parameter; a Python call that passes one positional argument
raises `TypeError`. -/
def sessionGetItemCount (args : List (Option Int)) (count : Int) :
    Except String Int :=
  match args with
  | [] => .ok count
  | _ => .error
      "TypeError: get_item_count() takes 1 positional argument but 2 were given"

/-- `base.Routine.get_item_count(slot)` always forwards its `slot`
parameter positionally to the session method. -/
def routineGetItemCount (slot : Option Int) (count : Int) :
    Except String Int :=
  sessionGetItemCount [slot] count

/-- Python tuple unpacking `a, b = v` of a decoded value: only a
two-element sequence unpacks; a plain `bool` raises `TypeError`. -/
def pyUnpack2 (v : J) : Except String (J × J) :=
  match v with
  | .arr [a, b] => .ok (a, b)
  | .arr _ => .error "ValueError: wrong number of values to unpack"
  | _ => .error "TypeError: cannot unpack non-iterable bool object"

/-- The device-side replies `dump_to_left_chest` would consume. -/
structure DumpEnv where
  itemCount : Int
  inspectOk : Bool
  placeOk : Bool

/-- `chest_slot` parsing: an int-like config value is taken, anything
else keeps the default 1 (the `except Exception: pass`), then the slot
is clamped into 1..16. -/
def parseChestSlot (config : Option (List (String × J))) : Int :=
  let raw : Int :=
    match config with
    | some kvs =>
        match dictGet kvs "chest_slot" with
        | some (.num n) => n
        | some (.bool b) => if b then 1 else 0
        | _ => 1
    | none => 1
  max 1 (min 16 raw)

/-- `dump_to_left_chest(self, session, config)` as invoked by the
routines (`self` a `base.Routine` bound to a `backend/turtle.py`
session), returning the trace of turtle commands it issues.  The call
`self.get_item_count(chest_slot)` forwards the slot to the session
method, and `placed, _ = await self.place()` unpacks the session's
plain boolean. -/
def dumpToLeftChest (env : DumpEnv)
    (config : Option (List (String × J))) : Except String (List String) := do
  let chestSlot := parseChestSlot config
  let log0 : List String := ["select"]
  let count ← routineGetItemCount (some chestSlot) env.itemCount
  if count ≤ 0 then
    pure log0
  else do
    let log1 := log0 ++ ["turn_left", "inspect"] ++
      (if env.inspectOk then ["dig"] else [])
    let placedPair ← pyUnpack2 (J.bool env.placeOk)
    let log2 := log1 ++ ["place", "dig_up", "up", "dig", "down"]
    if !truthy placedPair.1 then
      pure (log2 ++ ["turn_right"])
    else
      let slots : List Nat := (List.range 16).map (fun s => s + 1)
      let drops := (slots.filter
        (fun s => ((s : Int) != chestSlot))).map (fun _ => "drop")
      pure (log2 ++ drops ++ ["turn_right"])

/-- C10: every invocation of `dump_to_left_chest` raises `TypeError` at
`self.get_item_count(chest_slot)` — before the empty-slot check, the
left turn, the placement or any drop can happen — because the backend
session's `get_item_count` takes no slot argument (and, were that
repaired, `placed, _ = await self.place()` would unpack a plain bool). -/
theorem dump_to_left_chest_raises (env : DumpEnv)
    (config : Option (List (String × J))) :
    dumpToLeftChest env config = .error
      "TypeError: get_item_count() takes 1 positional argument but 2 were given" := by
  simp only [dumpToLeftChest, routineGetItemCount, sessionGetItemCount,
    exceptBindErr]

/-! ## `routines/subroutines.py`: `mine_ore_vein`

The subroutine is embedded over an explicit voxel-world model: the
world is a finite map from positions to block names, digging removes a
block, a move succeeds exactly when the destination holds no block, and
`inspect` reports the block (if any) at the probed cell.  The local
pose, the `mined` / `frontier` sets, the inspection cache and the
action counter are the Python locals; `movesDone` / `digsDone` count
the physical moves and digs actually performed, which is what the claim
counts. -/

/-- A world coordinate. -/
abbrev Pos : Type := Int × Int × Int

def addVec (a b : Pos) : Pos := (a.1 + b.1, a.2.1 + b.2.1, a.2.2 + b.2.2)

def subVec (a b : Pos) : Pos := (a.1 - b.1, a.2.1 - b.2.1, a.2.2 - b.2.2)

/-- `dir_vecs = [(1,0,0),(0,0,1),(-1,0,0),(0,0,-1)]` (0:+X, 1:+Z,
2:−X, 3:−Z); the heading index stays in 0..3 by the mod-4 updates. -/
def dirVec : Nat → Pos
  | 0 => (1, 0, 0)
  | 1 => (0, 0, 1)
  | 2 => (-1, 0, 0)
  | _ => (0, 0, -1)

/-- The 6-connected neighborhood used by the BFS and by
`adjacent_mined_neighbors`. -/
def neighborVecs : List Pos :=
  [(1,0,0), (-1,0,0), (0,0,1), (0,0,-1), (0,1,0), (0,-1,0)]

/-- Two cells are one 6-neighborhood step apart. -/
def Adjacent (a b : Pos) : Prop := ∃ dv ∈ neighborVecs, b = addVec a dv

/-- Reachability inside a cell set: a chain of adjacent cells, every
cell after the start lying in the set. -/
inductive ReachIn (s : List Pos) : Pos → Pos → Prop where
  | refl (a : Pos) : ReachIn s a a
  | tail {a b c : Pos} : ReachIn s a b → Adjacent b c → c ∈ s →
      ReachIn s a c

/-- The initial world: a finite set of solid cells with block names. -/
abbrev World : Type := List (Pos × String)

/-- The block name originally at a cell. -/
def lookupBlock (w : World) (c : Pos) : Option String :=
  (w.find? (fun p => p.1 == c)).map (·.2)

/-- The block currently at a cell: dug cells are air. -/
def solidName (w : World) (dug : List Pos) (c : Pos) : Option String :=
  if c ∈ dug then none else lookupBlock w c

/-- Set-insert on a list used as a set. -/
def insertPos (s : List Pos) (c : Pos) : List Pos :=
  if c ∈ s then s else s ++ [c]

/-- The locals of `mine_ore_vein`, plus the world overlay (`dug`) and
the physical move/dig counts. -/
structure VeinState where
  pos : Pos
  dirIdx : Nat
  mined : List Pos
  frontier : List Pos
  inspected : List (Pos × Option String)
  actions : Nat
  dug : List Pos
  movesDone : Nat
  digsDone : Nat
  deriving Repr, DecidableEq

/-- `turn_left_local`: the command always succeeds in the model and the
local heading is updated unconditionally, as in the source. -/
def turnLeftOp (st : VeinState) : VeinState :=
  { st with dirIdx := (st.dirIdx + 3) % 4 }

def turnRightOp (st : VeinState) : VeinState :=
  { st with dirIdx := (st.dirIdx + 1) % 4 }

/-- `face_dir(target_idx)`: rotate by the shortest direction.  The
Python `while` body always reaches the target in one pass (cw = 1: one
right; cw = 2: two rights; otherwise one left), so the loop is unrolled
once. -/
def faceDir (st : VeinState) (target : Nat) : VeinState :=
  if st.dirIdx = target then st
  else
    -- Python computes `(target_idx - dir_idx) % 4`; both indices stay
    -- in 0..3, where this agrees with the Nat form below.
    let cw := (target + 4 - st.dirIdx) % 4
    if cw = 1 then turnRightOp st
    else if cw = 2 then turnRightOp (turnRightOp st)
    else turnLeftOp st

/-- `step_forward_local`: `self.forward()` succeeds exactly when the
cell ahead is air; on success the local position follows. -/
def stepForward (w : World) (st : VeinState) : VeinState :=
  let ahead := addVec st.pos (dirVec st.dirIdx)
  if (solidName w st.dug ahead).isSome then st
  else { st with pos := ahead, movesDone := st.movesDone + 1 }

/-- `step_up_local`. -/
def stepUp (w : World) (st : VeinState) : VeinState :=
  let ahead := (st.pos.1, st.pos.2.1 + 1, st.pos.2.2)
  if (solidName w st.dug ahead).isSome then st
  else { st with pos := ahead, movesDone := st.movesDone + 1 }

/-- `step_down_local`. -/
def stepDown (w : World) (st : VeinState) : VeinState :=
  let ahead := (st.pos.1, st.pos.2.1 - 1, st.pos.2.2)
  if (solidName w st.dug ahead).isSome then st
  else { st with pos := ahead, movesDone := st.movesDone + 1 }

/-- A dig command aimed at a cell: removes the block when one is
present (counting a physical dig), does nothing on air. -/
def digAt (w : World) (st : VeinState) (target : Pos) : VeinState :=
  if (solidName w st.dug target).isSome then
    { st with dug := insertPos st.dug target, digsDone := st.digsDone + 1 }
  else st

def digFwd (w : World) (st : VeinState) : VeinState :=
  digAt w st (addVec st.pos (dirVec st.dirIdx))

def digUpOp (w : World) (st : VeinState) : VeinState :=
  digAt w st (st.pos.1, st.pos.2.1 + 1, st.pos.2.2)

def digDownOp (w : World) (st : VeinState) : VeinState :=
  digAt w st (st.pos.1, st.pos.2.1 - 1, st.pos.2.2)

/-- `name.lower()` at the character level (block names are ASCII). -/
def lowerStr (s : String) : List Char := s.data.map Char.toLower

/-- `is_ore(name)`: a non-empty name containing the substring "ore"
case-insensitively; `None` (air) is never ore. -/
def isOreName : Option String → Bool
  | none => false
  | some s => (s != "") && decide ("ore".data <:+: lowerStr s)

/-- The inspection cache (`inspected: dict[Vec3, str | None]`). -/
def cacheLookup (m : List (Pos × Option String)) (c : Pos) :
    Option (Option String) :=
  (m.find? (fun p => p.1 == c)).map (·.2)

/-- One horizontal probe of `refresh_frontier_here`: inspect the cell
ahead unless it is already cached, then add it to the frontier when the
(cached or fresh) name is ore and the cell is not yet mined. -/
def inspectHorizontal (w : World) (st : VeinState) : VeinState :=
  let adj := addVec st.pos (dirVec st.dirIdx)
  let (name, insp) :=
    match cacheLookup st.inspected adj with
    | some v => (v, st.inspected)
    | none =>
        let v := solidName w st.dug adj
        (v, st.inspected ++ [(adj, v)])
  let fr :=
    if isOreName name && !(decide (adj ∈ st.mined)) then
      insertPos st.frontier adj
    else st.frontier
  { st with inspected := insp, frontier := fr }

/-- The vertical probes of `refresh_frontier_here` (`inspect_up` /
`inspect_down` at `adj`): cache if absent, then test the cached name. -/
def inspectVertical (w : World) (st : VeinState) (adj : Pos) : VeinState :=
  let insp :=
    match cacheLookup st.inspected adj with
    | some _ => st.inspected
    | none => st.inspected ++ [(adj, solidName w st.dug adj)]
  let fr :=
    if isOreName ((cacheLookup insp adj).getD none) &&
        !(decide (adj ∈ st.mined)) then
      insertPos st.frontier adj
    else st.frontier
  { st with inspected := insp, frontier := fr }

/-- `while dir_idx != start: turn_left()`: left turns cycle with period
4, so at most three are needed; the loop is unrolled three times. -/
def restoreDir (st : VeinState) (start : Nat) : VeinState :=
  let s1 := if st.dirIdx != start then turnLeftOp st else st
  let s2 := if s1.dirIdx != start then turnLeftOp s1 else s1
  if s2.dirIdx != start then turnLeftOp s2 else s2

/-- `refresh_frontier_here`: probe the four horizontals while rotating
right (four rights restore the heading, so the trailing left-turn loop
is a no-op), then the cell above, then the cell below. -/
def refreshFrontier (w : World) (st : VeinState) : VeinState :=
  let st1 := turnRightOp (inspectHorizontal w st)
  let st2 := turnRightOp (inspectHorizontal w st1)
  let st3 := turnRightOp (inspectHorizontal w st2)
  let st4 := turnRightOp (inspectHorizontal w st3)
  let st5 := restoreDir st4 st.dirIdx
  let st6 := inspectVertical w st5 (st5.pos.1, st5.pos.2.1 + 1, st5.pos.2.2)
  inspectVertical w st6 (st6.pos.1, st6.pos.2.1 - 1, st6.pos.2.2)

/-! ### The BFS over the `mined` set (`bfs_path`) -/

/-- `n in came` on the predecessor dict. -/
def hasKeyP (came : List (Pos × Option Pos)) (c : Pos) : Bool :=
  came.any (fun p => p.1 == c)

/-- `came[n]`. -/
def lookupParent (came : List (Pos × Option Pos)) (c : Pos) :
    Option (Option Pos) :=
  (came.find? (fun p => p.1 == c)).map (·.2)

/-- The `for dv in neighbors` body of one BFS round: append every
mined, not-yet-seen neighbor of the dequeued cell to the queue and
record its predecessor. -/
def bfsExpandGo (mined : List Pos) (cur : Pos) :
    List Pos → List Pos × List (Pos × Option Pos) →
      List Pos × List (Pos × Option Pos)
  | [], acc => acc
  | dv :: dvs, acc =>
      let nxt := addVec cur dv
      if decide (nxt ∈ mined) && !hasKeyP acc.2 nxt then
        bfsExpandGo mined cur dvs (acc.1 ++ [nxt], acc.2 ++ [(nxt, some cur)])
      else bfsExpandGo mined cur dvs acc

/-- Expanding one dequeued cell over the six neighbor vectors. -/
def bfsExpand (mined : List Pos) (cur : Pos)
    (q : List Pos) (came : List (Pos × Option Pos)) :
    List Pos × List (Pos × Option Pos) :=
  bfsExpandGo mined cur neighborVecs (q, came)

/-- The BFS work loop (`while q`), fueled: each round pops one cell,
stops at the goal, and otherwise expands.  The Python loop terminates
because every cell is enqueued at most once; the chosen fuel is enough
for that, which is proved below. -/
def bfsLoop (mined : List Pos) (goal : Pos) :
    Nat → List Pos → List (Pos × Option Pos) → List (Pos × Option Pos)
  | 0, _, came => came
  | _ + 1, [], came => came
  | fuel + 1, cur :: q, came =>
      if cur = goal then came
      else
        let qc := bfsExpand mined cur q came
        bfsLoop mined goal fuel qc.1 qc.2

/-- Path reconstruction: follow predecessors from the goal back to the
start, building the path start-first (the Python builds it reversed and
then reverses). -/
def rebuildPath (came : List (Pos × Option Pos)) :
    Nat → Pos → Option (List Pos)
  | 0, _ => none
  | fuel + 1, cur =>
      match lookupParent came cur with
      | none => none
      | some none => some [cur]
      | some (some par) => (rebuildPath came fuel par).map (· ++ [cur])

/-- `bfs_path(start, goal)`: `[start]` when they coincide, otherwise
run the loop and reconstruct if the goal was reached. -/
def bfsPath (mined : List Pos) (start goal : Pos) : Option (List Pos) :=
  if start = goal then some [start]
  else
    let came := bfsLoop mined goal (2 * mined.length + 2)
      [start] [(start, none)]
    if hasKeyP came goal then rebuildPath came came.length goal
    else none

/-! ### Target selection (`adjacent_mined_neighbors` and the `best`
scan) -/

/-- `cands`: the six approach directions with the facing index for the
horizontal ones (−1 marks vertical). -/
def candDirs : List (Pos × Int) :=
  [((1,0,0), 0), ((0,0,1), 1), ((-1,0,0), 2), ((0,0,-1), 3),
   ((0,1,0), -1), ((0,-1,0), -1)]

/-- `adjacent_mined_neighbors(target)`: the mined cells from which one
dig-and-step reaches the target, with the step vector and facing. -/
def adjacentMinedNeighbors (mined : List Pos) (target : Pos) :
    List (Pos × Pos × Int) :=
  candDirs.filterMap (fun c =>
    let adj := subVec target c.1
    if adj ∈ mined then some (adj, c.1, c.2) else none)

/-- The running `best` tuple: path, target, step vector, facing. -/
structure BestChoice where
  path : List Pos
  target : Pos
  delta : Pos
  faceIdxI : Int
  deriving Repr, DecidableEq

/-- One candidate considered against the running best: keep the
strictly shorter path, first found winning ties. -/
def considerCand (mined : List Pos) (pos : Pos) (tgt : Pos)
    (best : Option BestChoice) (c : Pos × Pos × Int) : Option BestChoice :=
  match bfsPath mined pos c.1 with
  | none => best
  | some p =>
      match best with
      | none => some ⟨p, tgt, c.2.1, c.2.2⟩
      | some b =>
          if p.length < b.path.length then some ⟨p, tgt, c.2.1, c.2.2⟩
          else some b

/-- The nested `for tgt in frontier: for ... in
adjacent_mined_neighbors(tgt)` scan. -/
def selectBest (mined frontier : List Pos) (pos : Pos) : Option BestChoice :=
  frontier.foldl
    (fun best tgt =>
      (adjacentMinedNeighbors mined tgt).foldl (considerCand mined pos tgt)
        best)
    none

/-! ### Walking a path and mining the chosen target -/

/-- Map a step vector back to its heading index (the
`for i, v in enumerate(dir_vecs)` search). -/
def findDirIdx (dv : Pos) : Option Nat :=
  if dv = (1,0,0) then some 0
  else if dv = (0,0,1) then some 1
  else if dv = (-1,0,0) then some 2
  else if dv = (0,0,-1) then some 3
  else none

/-- One path step: vertical deltas move directly; otherwise face the
matching heading (if any) and step forward — the forward attempt is
made even when no heading matches, as in the source. -/
def walkStepMove (w : World) (st : VeinState) (step : Pos) : VeinState :=
  let dv := subVec step st.pos
  if dv = (0,1,0) then stepUp w st
  else if dv = (0,-1,0) then stepDown w st
  else
    let st1 :=
      match findDirIdx dv with
      | some i => faceDir st i
      | none => st
    stepForward w st1

/-- Walking `path[1:]` inside the main loop: one action per step, with
the early `break` once the budget is reached. -/
def walkMain (w : World) (maxA : Nat) :
    List Pos → VeinState → VeinState
  | [], st => st
  | step :: rest, st =>
      let st1 := walkStepMove w st step
      let st2 := { st1 with actions := st1.actions + 1 }
      if maxA ≤ st2.actions then st2
      else walkMain w maxA rest st2

/-- Walking `ph[1:]` on the way home: no action accounting. -/
def walkHome (w : World) : List Pos → VeinState → VeinState
  | [], st => st
  | step :: rest, st => walkHome w rest (walkStepMove w st step)

/-- Arrival at the cell adjacent to the chosen frontier target: face
and dig-and-step for a horizontal approach, dig-up/up or dig-down/down
for a vertical one. -/
def mineTarget (w : World) (st : VeinState) (b : BestChoice) : VeinState :=
  if 0 ≤ b.faceIdxI then
    stepForward w (digFwd w (faceDir st b.faceIdxI.toNat))
  else if b.delta = (0,1,0) then stepUp w (digUpOp w st)
  else if b.delta = (0,-1,0) then stepDown w (digDownOp w st)
  else st

/-- The main `while frontier and actions < max_actions` loop, fueled;
each continuing iteration increments `actions`, so `max_actions + 1`
rounds of fuel suffice (proved below). -/
def veinLoop (w : World) (maxA : Nat) :
    Nat → VeinState → Option VeinState
  | 0, _ => none
  | fuel + 1, st =>
      if st.frontier.isEmpty || maxA ≤ st.actions then some st
      else
        match selectBest st.mined st.frontier st.pos with
        | none => some st
        | some b =>
            let st1 := walkMain w maxA b.path.tail st
            if maxA ≤ st1.actions then some st1
            else
              let st2 := mineTarget w st1 b
              let st3 := { st2 with
                mined := insertPos st2.mined st2.pos,
                frontier := st2.frontier.erase b.target,
                actions := st2.actions + 1 }
              veinLoop w maxA fuel (refreshFrontier w st3)

/-- The locals right after initialization: at the origin facing 0,
`mined = {origin}`, everything else empty. -/
def initialVeinState : VeinState :=
  { pos := (0,0,0), dirIdx := 0, mined := [(0,0,0)], frontier := [],
    inspected := [], actions := 0, dug := [], movesDone := 0,
    digsDone := 0 }

/-- `mine_ore_vein` with the given `max_actions`: refresh the frontier
once, run the loop, then BFS home over `mined` (when a path is found,
walk it) and restore the starting heading.  `none` only on fuel
exhaustion, which is proved impossible. -/
def mineOreVein (w : World) (maxA : Nat) : Option VeinState :=
  let st0 := refreshFrontier w initialVeinState
  match veinLoop w maxA (maxA + 1) st0 with
  | none => none
  | some st =>
      let st1 :=
        if st.pos ≠ (0,0,0) then
          match bfsPath st.mined st.pos (0,0,0) with
          | some ph => walkHome w ph.tail st
          | none => st
        else st
      some (faceDir st1 0)

/-- C3 counterexample to the claim as stated: in a world holding a
single ore block one step ahead of the start, `mine_ore_vein` with
`max_actions = 1` performs 2 moves and 1 dig — 3 actions by the claim's
counting, exceeding `max_actions` — because the frontier-mining step
(a dig plus a move) increments the internal counter only once and the
return walk home is not counted at all. -/
theorem mine_ore_vein_action_bound_cex :
    ((mineOreVein [(((1 : Int), (0 : Int), (0 : Int)),
        "minecraft:iron_ore")] 1).map
      (fun st => (st.movesDone + st.digsDone, st.pos, st.dirIdx)))
      = some (3, ((0 : Int), (0 : Int), (0 : Int)), 0) ∧
    ¬ ((3 : Nat) ≤ 1) := by
  constructor
  · decide
  · decide

/-! ### Basic facts about adjacency, reachability and the set helpers -/

theorem mem_insertPos {s : List Pos} {c x : Pos} :
    x ∈ insertPos s c ↔ x ∈ s ∨ x = c := by
  by_cases h : c ∈ s
  · simp only [insertPos, if_pos h]
    constructor
    · exact fun hx => Or.inl hx
    · rintro (hx | rfl)
      · exact hx
      · exact h
  · simp [insertPos, if_neg h]

theorem insertPos_nodup {s : List Pos} {c : Pos} (h : s.Nodup) :
    (insertPos s c).Nodup := by
  by_cases hc : c ∈ s
  · simpa [insertPos, if_pos hc] using h
  · simp only [insertPos, if_neg hc]
    refine List.Nodup.append h (List.nodup_singleton c) ?_
    intro x hx hxc
    simp only [List.mem_singleton] at hxc
    exact hc (hxc ▸ hx)

theorem sub_of_insertPos {s : List Pos} {c : Pos} : s ⊆ insertPos s c := by
  intro x hx
  exact mem_insertPos.mpr (Or.inl hx)

theorem self_mem_insertPos {s : List Pos} {c : Pos} : c ∈ insertPos s c :=
  mem_insertPos.mpr (Or.inr rfl)

/-- Digging more cells keeps air cells air. -/
theorem solidName_none_mono {w : World} {dug : List Pos} {c t : Pos}
    (h : solidName w dug c = none) :
    solidName w (insertPos dug t) c = none := by
  by_cases hc : c ∈ insertPos dug t
  · simp [solidName, hc]
  · have hc' : c ∉ dug := fun hd => hc (sub_of_insertPos hd)
    have hl : lookupBlock w c = none := by
      simpa [solidName, hc'] using h
    simp [solidName, hc, hl]

/-- A freshly dug cell is air. -/
theorem solidName_insert_self {w : World} {dug : List Pos} {t : Pos} :
    solidName w (insertPos dug t) t = none := by
  simp [solidName, self_mem_insertPos]

theorem adjacent_of_delta {a : Pos} {dv : Pos} (h : dv ∈ neighborVecs) :
    Adjacent a (addVec a dv) :=
  ⟨dv, h, rfl⟩

theorem adjacent_symm {a b : Pos} (h : Adjacent a b) : Adjacent b a := by
  obtain ⟨dv, hdv, rfl⟩ := h
  simp only [neighborVecs, List.mem_cons, List.mem_singleton] at hdv
  rcases hdv with rfl | rfl | rfl | rfl | rfl | rfl | h
  · exact ⟨(-1,0,0), by simp [neighborVecs], by simp [addVec]⟩
  · exact ⟨(1,0,0), by simp [neighborVecs], by simp [addVec]⟩
  · exact ⟨(0,0,-1), by simp [neighborVecs], by simp [addVec]⟩
  · exact ⟨(0,0,1), by simp [neighborVecs], by simp [addVec]⟩
  · exact ⟨(0,-1,0), by simp [neighborVecs], by simp [addVec]⟩
  · exact ⟨(0,1,0), by simp [neighborVecs], by simp [addVec]⟩
  · simp at h

theorem ReachIn.mono {s t : List Pos} {a b : Pos} (hsub : s ⊆ t)
    (h : ReachIn s a b) : ReachIn t a b := by
  induction h with
  | refl => exact ReachIn.refl _
  | tail _ hadj hmem ih => exact ReachIn.tail ih hadj (hsub hmem)

theorem ReachIn.trans {s : List Pos} {a b c : Pos}
    (h1 : ReachIn s a b) (h2 : ReachIn s b c) : ReachIn s a c := by
  induction h2 with
  | refl => exact h1
  | tail _ hadj hmem ih => exact ReachIn.tail ih hadj hmem

theorem ReachIn.end_mem {s : List Pos} {a b : Pos} (h : ReachIn s a b) :
    b = a ∨ b ∈ s := by
  cases h with
  | refl => exact Or.inl rfl
  | tail _ _ hmem => exact Or.inr hmem

theorem ReachIn.symm_of_mem {s : List Pos} {a b : Pos}
    (h : ReachIn s a b) (ha : a ∈ s) : ReachIn s b a := by
  induction h with
  | refl => exact ReachIn.refl _
  | tail hab hadj hmem ih =>
      rename_i x y
      have hsingle : ReachIn s y x := by
        rcases hab.end_mem with rfl | hx
        · exact ReachIn.tail (ReachIn.refl y) (adjacent_symm hadj) ha
        · exact ReachIn.tail (ReachIn.refl y) (adjacent_symm hadj) hx
      exact hsingle.trans ih

/-! ### BFS invariants: the predecessor map is a well-founded forest -/

/-- The key list of the predecessor map. -/
def keysP (came : List (Pos × Option Pos)) : List Pos :=
  came.map Prod.fst

theorem hasKeyP_iff {came : List (Pos × Option Pos)} {c : Pos} :
    hasKeyP came c = true ↔ c ∈ keysP came := by
  simp only [hasKeyP, keysP, List.any_eq_true, List.mem_map, beq_iff_eq]

theorem keysP_append (a b : List (Pos × Option Pos)) :
    keysP (a ++ b) = keysP a ++ keysP b := by
  simp [keysP]

/-- How the BFS builds its predecessor map: starting from the start
cell, each recorded cell is a mined, previously unseen neighbor of an
already recorded cell. -/
inductive CameChain (mined : List Pos) (start : Pos) :
    List (Pos × Option Pos) → Prop where
  | base : CameChain mined start [(start, none)]
  | push {came : List (Pos × Option Pos)} {nxt par : Pos} :
      CameChain mined start came → nxt ∈ mined → nxt ∉ keysP came →
      par ∈ keysP came → Adjacent par nxt →
      CameChain mined start (came ++ [(nxt, some par)])

theorem CameChain.keys_nodup {mined : List Pos} {start : Pos}
    {came : List (Pos × Option Pos)} (h : CameChain mined start came) :
    (keysP came).Nodup := by
  induction h with
  | base => simp [keysP]
  | push _ _ hfresh _ _ ih =>
      rw [keysP_append]
      refine List.Nodup.append ih (by simp [keysP]) ?_
      intro x hx hx2
      simp only [keysP, List.map_cons, List.map_nil,
        List.mem_singleton] at hx2
      exact hfresh (hx2 ▸ hx)

theorem CameChain.keys_sub {mined : List Pos} {start : Pos}
    {came : List (Pos × Option Pos)} (h : CameChain mined start came) :
    ∀ c ∈ keysP came, c = start ∨ c ∈ mined := by
  induction h with
  | base =>
      intro c hc
      simp only [keysP, List.map_cons, List.map_nil,
        List.mem_singleton] at hc
      exact Or.inl hc
  | push _ hmem _ _ _ ih =>
      intro c hc
      rw [keysP_append] at hc
      rcases List.mem_append.mp hc with hc | hc
      · exact ih c hc
      · simp only [keysP, List.map_cons, List.map_nil,
          List.mem_singleton] at hc
        exact Or.inr (hc ▸ hmem)

theorem CameChain.start_mem {mined : List Pos} {start : Pos}
    {came : List (Pos × Option Pos)} (h : CameChain mined start came) :
    start ∈ keysP came := by
  induction h with
  | base => simp [keysP]
  | push _ _ _ _ _ ih => rw [keysP_append]; exact List.mem_append_left _ ih

theorem CameChain.length_le {mined : List Pos} {start : Pos}
    {came : List (Pos × Option Pos)} (h : CameChain mined start came) :
    came.length ≤ mined.length + 1 := by
  have hnd := h.keys_nodup
  have hsub : keysP came ⊆ start :: mined := by
    intro c hc
    rcases h.keys_sub c hc with rfl | hm
    · exact List.mem_cons_self _ _
    · exact List.mem_cons_of_mem _ hm
  have h1 : (keysP came).toFinset.card = (keysP came).length :=
    List.toFinset_card_of_nodup hnd
  have h2 : (keysP came).toFinset ⊆ (start :: mined).toFinset := by
    intro x hx
    simp only [List.mem_toFinset] at hx ⊢
    exact hsub hx
  have h3 := Finset.card_le_card h2
  have h4 := (start :: mined).toFinset_card_le
  have h5 : (keysP came).length = came.length := by simp [keysP]
  simp only [List.length_cons] at h4
  omega

/-- Looking a key up in the map ignores appended entries. -/
theorem lookupParent_append_left {came ext : List (Pos × Option Pos)}
    {c : Pos} (h : c ∈ keysP came) :
    lookupParent (came ++ ext) c = lookupParent came c := by
  simp only [lookupParent, List.find?_append]
  have hs : (came.find? (fun p => p.1 == c)).isSome := by
    rw [List.find?_isSome]
    simp only [keysP, List.mem_map] at h
    obtain ⟨q, hq, hqc⟩ := h
    exact ⟨q, hq, by simp [hqc]⟩
  obtain ⟨v, hv⟩ := Option.isSome_iff_exists.mp hs
  simp [hv]

/-- A fresh appended key looks up to its stored parent. -/
theorem lookupParent_append_fresh {came : List (Pos × Option Pos)}
    {c : Pos} {v : Option Pos} (h : c ∉ keysP came) :
    lookupParent (came ++ [(c, v)]) c = some v := by
  simp only [lookupParent, List.find?_append]
  have : came.find? (fun p => p.1 == c) = none := by
    rw [List.find?_eq_none]
    intro p hp
    simp only [beq_iff_eq]
    intro hpc
    refine h ?_
    simp only [keysP, List.mem_map]
    exact ⟨p, hp, hpc⟩
  simp [this, List.find?]

/-- The start of the chain has no parent. -/
theorem CameChain.lookup_start {mined : List Pos} {start : Pos}
    {came : List (Pos × Option Pos)} (h : CameChain mined start came) :
    lookupParent came start = some none := by
  induction h with
  | base => simp [lookupParent, List.find?]
  | push hch _ _ _ _ ih =>
      rw [lookupParent_append_left hch.start_mem]
      exact ih

/-- Reconstruction only consults keys along the produced path, so it is
stable under map extensions that keep those lookups. -/
theorem rebuildPath_congr {came came2 : List (Pos × Option Pos)}
    (h : ∀ k ∈ keysP came, lookupParent came2 k = lookupParent came k) :
    ∀ (fuel : Nat) (c : Pos) (p : List Pos),
      rebuildPath came fuel c = some p → (∀ x ∈ p, x ∈ keysP came) →
      rebuildPath came2 fuel c = some p := by
  intro fuel
  induction fuel with
  | zero => intro c p hp; simp [rebuildPath] at hp
  | succ fuel ih =>
      intro c p hp hmem
      simp only [rebuildPath] at hp ⊢
      cases hl : lookupParent came c with
      | none => rw [hl] at hp; cases hp
      | some par =>
          rw [hl] at hp
          cases par with
          | none =>
              have hp2 : some [c] = some p := hp
              cases hp2
              have hck : c ∈ keysP came := hmem c (by simp)
              rw [h c hck, hl]
          | some par0 =>
              have hp2 : Option.map (fun x => x ++ [c])
                  (rebuildPath came fuel par0) = some p := hp
              cases hrec : rebuildPath came fuel par0 with
              | none => rw [hrec] at hp2; cases hp2
              | some p0 =>
                  rw [hrec] at hp2
                  have hp3 : p0 ++ [c] = p := by simpa using hp2
                  have hck : c ∈ keysP came :=
                    hmem c (by rw [← hp3]; simp)
                  have hp0mem : ∀ x ∈ p0, x ∈ keysP came := fun x hx =>
                    hmem x (by rw [← hp3]; exact List.mem_append_left _ hx)
                  rw [h c hck, hl]
                  show Option.map (fun x => x ++ [c])
                    (rebuildPath came2 fuel par0) = some p
                  rw [ih par0 p0 hrec hp0mem]
                  simpa using hp3

theorem getLastD_concat {l : List Pos} {a d : Pos} :
    (l ++ [a]).getLastD d = a := by
  induction l generalizing d with
  | nil => rfl
  | cons x xs ih =>
      rw [List.cons_append, List.getLastD_cons]
      exact ih

/-- Every recorded key can be reconstructed into a valid path: it
starts at the BFS start, ends at the key, moves between 6-neighbors,
stays on recorded keys, and its cells after the start are mined. -/
theorem CameChain.rebuild {mined : List Pos} {start : Pos}
    {came : List (Pos × Option Pos)} (h : CameChain mined start came) :
    ∀ c ∈ keysP came, ∃ p : List Pos,
      (∀ fuel, came.length ≤ fuel → rebuildPath came fuel c = some p) ∧
      p.head? = some start ∧ p.getLast? = some c ∧
      List.Chain' Adjacent p ∧ (∀ x ∈ p, x ∈ keysP came) ∧
      (∀ x ∈ p.tail, x ∈ mined) := by
  induction h with
  | base =>
      intro c hc
      simp only [keysP, List.map_cons, List.map_nil,
        List.mem_singleton] at hc
      subst hc
      refine ⟨[c], ?_, rfl, rfl, ?_, ?_, ?_⟩
      · intro fuel hf
        cases fuel with
        | zero => simp at hf
        | succ f => simp [rebuildPath, lookupParent, List.find?]
      · simp
      · intro x hx
        simp only [List.mem_singleton] at hx
        simp [keysP, hx]
      · intro x hx; simp at hx
  | push hch hmem hfresh hpar hadj ih =>
      rename_i came0 nxt par
      intro c hc
      rw [keysP_append] at hc
      have hlk : ∀ k ∈ keysP came0,
          lookupParent (came0 ++ [(nxt, some par)]) k =
            lookupParent came0 k :=
        fun k hk => lookupParent_append_left hk
      rcases List.mem_append.mp hc with hc0 | hcnew
      · obtain ⟨p, hfuel, hhead, hlast, hchain, hkeys, htail⟩ := ih c hc0
        refine ⟨p, ?_, hhead, hlast, hchain, ?_, htail⟩
        · intro fuel hf
          have hf0 : came0.length ≤ fuel := by
            simp only [List.length_append, List.length_cons,
              List.length_nil] at hf
            omega
          exact rebuildPath_congr hlk fuel c p (hfuel fuel hf0) hkeys
        · intro x hx
          rw [keysP_append]
          exact List.mem_append_left _ (hkeys x hx)
      · simp only [keysP, List.map_cons, List.map_nil,
          List.mem_singleton] at hcnew
        subst hcnew
        obtain ⟨p, hfuel, hhead, hlast, hchain, hkeys, htail⟩ := ih par hpar
        refine ⟨p ++ [c], ?_, ?_, ?_, ?_, ?_, ?_⟩
        · intro fuel hf
          simp only [List.length_append, List.length_cons,
            List.length_nil] at hf
          cases fuel with
          | zero => omega
          | succ f =>
              have hf0 : came0.length ≤ f := by omega
              simp only [rebuildPath, lookupParent_append_fresh hfresh]
              rw [rebuildPath_congr hlk f par p (hfuel f hf0) hkeys]
              rfl
        · cases p with
          | nil => simp at hhead
          | cons a rest => simpa using hhead
        · rw [List.getLast?_append]
          rfl
        · refine List.Chain'.append hchain (by simp) ?_
          intro x hx y hy
          rw [hlast] at hx
          simp only [Option.mem_def, Option.some.injEq] at hx
          simp only [List.head?_cons, Option.mem_def,
            Option.some.injEq] at hy
          subst hx
          subst hy
          exact hadj
        · intro x hx
          rw [keysP_append]
          rcases List.mem_append.mp hx with hx0 | hx1
          · exact List.mem_append_left _ (hkeys x hx0)
          · simp only [List.mem_singleton] at hx1
            refine List.mem_append_right _ ?_
            simp [keysP, hx1]
        · intro x hx
          cases p with
          | nil => simp at hhead
          | cons a rest =>
              simp only [List.cons_append, List.tail_cons] at hx
              rcases List.mem_append.mp hx with hx0 | hx1
              · exact htail x (by simpa using hx0)
              · simp only [List.mem_singleton] at hx1
                exact hx1 ▸ hmem

/-- Effect of expanding one dequeued cell over a list of neighbor
vectors: the fresh mined neighbors (in order) are appended to both the
queue and the map, the chain structure is preserved, and afterwards
every mined neighbor along the processed vectors is recorded. -/
theorem bfsExpandGo_spec (mined : List Pos) (start cur : Pos)
    (dvs : List Pos) (hdvs : ∀ dv ∈ dvs, dv ∈ neighborVecs) :
    ∀ (q : List Pos) (came : List (Pos × Option Pos)),
      CameChain mined start came → cur ∈ keysP came →
      ∃ ext : List (Pos × Option Pos),
        bfsExpandGo mined cur dvs (q, came) = (q ++ keysP ext, came ++ ext) ∧
        CameChain mined start (came ++ ext) ∧
        (∀ c ∈ keysP ext, c ∈ mined) ∧
        (∀ dv ∈ dvs, addVec cur dv ∈ mined →
          addVec cur dv ∈ keysP (came ++ ext)) := by
  induction dvs with
  | nil =>
      intro q came hch _
      exact ⟨[], by simp [bfsExpandGo, keysP], by simpa using hch,
        by simp [keysP], by simp⟩
  | cons dv dvs ih =>
      intro q came hch hcur
      have hdv : dv ∈ neighborVecs := hdvs dv (by simp)
      have hdvs' : ∀ v ∈ dvs, v ∈ neighborVecs :=
        fun v hv => hdvs v (List.mem_cons_of_mem _ hv)
      by_cases htake : addVec cur dv ∈ mined ∧
          hasKeyP came (addVec cur dv) = false
      · have hfresh : addVec cur dv ∉ keysP came := by
          intro hmem
          rw [← hasKeyP_iff] at hmem
          rw [htake.2] at hmem
          cases hmem
        have hch2 : CameChain mined start
            (came ++ [(addVec cur dv, some cur)]) :=
          CameChain.push hch htake.1 hfresh hcur ⟨dv, hdv, rfl⟩
        have hcur2 : cur ∈ keysP (came ++ [(addVec cur dv, some cur)]) := by
          rw [keysP_append]
          exact List.mem_append_left _ hcur
        obtain ⟨ext, hrun, hch3, hmined, hclose⟩ :=
          ih hdvs' (q ++ [addVec cur dv])
            (came ++ [(addVec cur dv, some cur)]) hch2 hcur2
        refine ⟨(addVec cur dv, some cur) :: ext, ?_, ?_, ?_, ?_⟩
        · have hguard : (decide (addVec cur dv ∈ mined) &&
              !hasKeyP came (addVec cur dv)) = true := by
            simp [htake.1, htake.2]
          simp only [bfsExpandGo, hguard, if_pos]
          rw [hrun]
          simp [keysP]
        · simpa [List.append_assoc] using hch3
        · intro c hc
          simp only [keysP, List.map_cons, List.mem_cons] at hc
          rcases hc with rfl | hc
          · exact htake.1
          · exact hmined c (by simpa [keysP] using hc)
        · intro v hv hvm
          rcases List.mem_cons.mp hv with rfl | hv2
          · have : addVec cur v ∈ keysP (came ++ [(addVec cur v, some cur)]) := by
              rw [keysP_append]
              refine List.mem_append_right _ ?_
              simp [keysP]
            rcases List.mem_append.mp (by
              simpa [keysP_append] using this) with hl | hr
            · rw [keysP_append]
              exact List.mem_append_left _ hl
            · rw [keysP_append]
              refine List.mem_append_right _ ?_
              simp only [keysP, List.map_cons, List.mem_cons]
              simp only [keysP, List.map_cons, List.map_nil,
                List.mem_singleton] at hr
              exact Or.inl hr
          · have := hclose v hv2 hvm
            rw [keysP_append] at this ⊢
            rcases List.mem_append.mp this with hl | hr
            · rcases List.mem_append.mp (by simpa [keysP_append] using hl)
                with hl2 | hr2
              · exact List.mem_append_left _ hl2
              · refine List.mem_append_right _ ?_
                simp only [keysP, List.map_cons, List.mem_cons]
                simp only [keysP, List.map_cons, List.map_nil,
                  List.mem_singleton] at hr2
                exact Or.inl hr2
            · refine List.mem_append_right _ ?_
              simp only [keysP, List.map_cons, List.mem_cons]
              exact Or.inr (by simpa [keysP] using hr)
      · obtain ⟨ext, hrun, hch3, hmined, hclose⟩ := ih hdvs' q came hch hcur
        refine ⟨ext, ?_, hch3, hmined, ?_⟩
        · have hguard : (decide (addVec cur dv ∈ mined) &&
              !hasKeyP came (addVec cur dv)) = false := by
            rcases Decidable.not_and_iff_or_not.mp htake with hnm | hkey
            · simp [hnm]
            · have : hasKeyP came (addVec cur dv) = true := by
                cases hk : hasKeyP came (addVec cur dv) with
                | true => rfl
                | false => exact absurd hk hkey
              simp [this]
          simp only [bfsExpandGo, hguard]
          simp only [Bool.false_eq_true, if_false]
          exact hrun
        · intro v hv hvm
          rcases List.mem_cons.mp hv with rfl | hv2
          · rcases Decidable.not_and_iff_or_not.mp htake with hnm | hkey
            · exact absurd hvm hnm
            · have hk : hasKeyP came (addVec cur v) = true := by
                cases hk : hasKeyP came (addVec cur v) with
                | true => rfl
                | false => exact absurd hk hkey
              rw [keysP_append]
              exact List.mem_append_left _ (hasKeyP_iff.mp hk)
          · exact hclose v hv2 hvm

/-- End state of the BFS work loop: the chain structure survives and
either the goal was recorded or the recorded set is closed under mined
neighbors.  The fuel condition is the termination measure: each round
pops one queue entry and every enqueue also grows the map, whose length
is bounded by `mined.length + 1`. -/
theorem bfsLoop_spec (mined : List Pos) (start goal : Pos) :
    ∀ (fuel : Nat) (q : List Pos) (came : List (Pos × Option Pos)),
      CameChain mined start came →
      (∀ c ∈ q, c ∈ keysP came) →
      (∀ c ∈ keysP came, c ∈ q ∨
        (∀ dv ∈ neighborVecs, addVec c dv ∈ mined →
          addVec c dv ∈ keysP came)) →
      q.length + 2 * (mined.length + 1) < fuel + 2 * came.length →
      CameChain mined start (bfsLoop mined goal fuel q came) ∧
        (goal ∈ keysP (bfsLoop mined goal fuel q came) ∨
          (∀ c ∈ keysP (bfsLoop mined goal fuel q came),
            ∀ dv ∈ neighborVecs, addVec c dv ∈ mined →
              addVec c dv ∈ keysP (bfsLoop mined goal fuel q came))) := by
  intro fuel
  induction fuel with
  | zero =>
      intro q came hch _ _ hmeas
      have := hch.length_le
      omega
  | succ fuel ih =>
      intro q came hch hqsub hcq hmeas
      cases q with
      | nil =>
          refine ⟨by simpa [bfsLoop] using hch, Or.inr ?_⟩
          intro c hc dv hdv hm
          rcases hcq c (by simpa [bfsLoop] using hc) with hq | hcl
          · simp at hq
          · simpa [bfsLoop] using hcl dv hdv hm
      | cons cur q =>
          by_cases hgoal : cur = goal
          · subst hgoal
            refine ⟨by simpa [bfsLoop] using hch, Or.inl ?_⟩
            simpa [bfsLoop] using hqsub cur (by simp)
          · obtain ⟨ext, hrun, hch2, _, hclose⟩ :=
              bfsExpandGo_spec mined start cur neighborVecs
                (fun dv hdv => hdv) q came hch (hqsub cur (by simp))
            have hq2 : ∀ c ∈ q ++ keysP ext, c ∈ keysP (came ++ ext) := by
              intro c hc
              rw [keysP_append]
              rcases List.mem_append.mp hc with hl | hr
              · exact List.mem_append_left _
                  (hqsub c (List.mem_cons_of_mem _ hl))
              · exact List.mem_append_right _ hr
            have hcq2 : ∀ c ∈ keysP (came ++ ext), c ∈ q ++ keysP ext ∨
                (∀ dv ∈ neighborVecs, addVec c dv ∈ mined →
                  addVec c dv ∈ keysP (came ++ ext)) := by
              intro c hc
              rw [keysP_append] at hc
              rcases List.mem_append.mp hc with hl | hr
              · rcases hcq c hl with hq | hcl
                · rcases List.mem_cons.mp hq with rfl | hq2
                  · exact Or.inr (fun dv hdv hm => hclose dv hdv hm)
                  · exact Or.inl (List.mem_append_left _ hq2)
                · refine Or.inr (fun dv hdv hm => ?_)
                  rw [keysP_append]
                  exact List.mem_append_left _ (hcl dv hdv hm)
              · exact Or.inl (List.mem_append_right _ hr)
            have hlen2 := hch2.length_le
            have hmeas2 : (q ++ keysP ext).length + 2 * (mined.length + 1)
                < fuel + 2 * (came ++ ext).length := by
              have h1 : (q ++ keysP ext).length = q.length + ext.length := by
                simp [keysP]
              have h2 : (came ++ ext).length = came.length + ext.length := by
                simp
              simp only [List.length_cons] at hmeas
              omega
            have hres := ih (q ++ keysP ext) (came ++ ext) hch2 hq2 hcq2
              hmeas2
            have hstep : bfsLoop mined goal (fuel + 1) (cur :: q) came
                = bfsLoop mined goal fuel (q ++ keysP ext) (came ++ ext) := by
              simp only [bfsLoop, if_neg hgoal, bfsExpand]
              rw [hrun]
            rw [hstep]
            exact hres

/-- `bfs_path` soundness: a returned path runs from `start` to `goal`
through 6-neighbor steps, with every cell after the start mined. -/
theorem bfsPath_sound {mined : List Pos} {start goal : Pos} {p : List Pos}
    (h : bfsPath mined start goal = some p) :
    p.head? = some start ∧ p.getLast? = some goal ∧
    List.Chain' Adjacent p ∧ (∀ x ∈ p.tail, x ∈ mined) := by
  by_cases heq : start = goal
  · subst heq
    simp only [bfsPath, if_true, Option.some.injEq, reduceIte] at h
    subst h
    exact ⟨rfl, rfl, by simp, by intro x hx; simp at hx⟩
  · simp only [bfsPath, if_neg heq] at h
    have hinit := bfsLoop_spec mined start goal (2 * mined.length + 2)
      [start] [(start, none)] CameChain.base
      (by intro c hc; simpa [keysP] using hc)
      (by
        intro c hc
        simp only [keysP, List.map_cons, List.map_nil,
          List.mem_singleton] at hc
        exact Or.inl (by simp [hc]))
      (by simp; omega)
    set came2 := bfsLoop mined goal (2 * mined.length + 2)
      [start] [(start, none)] with hcame2
    by_cases hkey : hasKeyP came2 goal = true
    · rw [if_pos hkey] at h
      obtain ⟨p0, hfuel, hhead, hlast, hchain, _, htail⟩ :=
        hinit.1.rebuild goal (hasKeyP_iff.mp hkey)
      rw [hfuel came2.length (le_refl _)] at h
      cases h
      exact ⟨hhead, hlast, hchain, htail⟩
    · rw [if_neg hkey] at h
      cases h

/-- In a start-containing, expansion-closed cell set, everything
reachable from the start is a member. -/
theorem reach_mem_of_closed {mined : List Pos} {start : Pos}
    {keys : List Pos} (hstart : start ∈ keys)
    (hclosed : ∀ c ∈ keys, ∀ dv ∈ neighborVecs,
      addVec c dv ∈ mined → addVec c dv ∈ keys) :
    ∀ {goal : Pos}, ReachIn mined start goal → goal ∈ keys := by
  intro goal h
  induction h with
  | refl => exact hstart
  | tail _ hadj hmem ih =>
      obtain ⟨dv, hdv, rfl⟩ := hadj
      exact hclosed _ ih dv hdv hmem

/-- `bfs_path` completeness: when the goal is reachable from the start
over the mined set, the BFS finds a path. -/
theorem bfsPath_complete {mined : List Pos} {start goal : Pos}
    (h : ReachIn mined start goal) :
    ∃ p, bfsPath mined start goal = some p := by
  by_cases heq : start = goal
  · exact ⟨[start], by simp [bfsPath, heq]⟩
  · have hinit := bfsLoop_spec mined start goal (2 * mined.length + 2)
      [start] [(start, none)] CameChain.base
      (by intro c hc; simpa [keysP] using hc)
      (by
        intro c hc
        simp only [keysP, List.map_cons, List.map_nil,
          List.mem_singleton] at hc
        exact Or.inl (by simp [hc]))
      (by simp; omega)
    set came2 := bfsLoop mined goal (2 * mined.length + 2)
      [start] [(start, none)] with hcame2
    have hgoalmem : goal ∈ keysP came2 := by
      rcases hinit.2 with hg | hclosed
      · exact hg
      · exact reach_mem_of_closed hinit.1.start_mem hclosed h
    obtain ⟨p0, hfuel, _, _, _, _, _⟩ := hinit.1.rebuild goal hgoalmem
    refine ⟨p0, ?_⟩
    simp only [bfsPath, if_neg heq, ← hcame2,
      if_pos (hasKeyP_iff.mpr hgoalmem)]
    exact hfuel came2.length (le_refl _)

/-! ### Walking lemmas -/

/-- `face_dir` reaches the requested heading in one pass and changes
nothing else. -/
theorem faceDir_eq (st : VeinState) (t : Nat) (hd : st.dirIdx < 4)
    (ht : t < 4) :
    faceDir st t = { st with dirIdx := t } := by
  obtain ⟨pos, d, mined, frontier, insp, acts, dug, mv, dg⟩ := st
  simp only at hd
  interval_cases d <;> interval_cases t <;>
    simp [faceDir, turnLeftOp, turnRightOp]

theorem subVec_addVec (a dv : Pos) : subVec (addVec a dv) a = dv := by
  obtain ⟨x, y, z⟩ := a
  obtain ⟨u, v, t⟩ := dv
  simp [addVec, subVec]

/-- One path step onto an adjacent air cell: the position follows the
step, one move is counted, the heading stays in range, and every other
component is untouched. -/
theorem walkStepMove_spec (w : World) (st : VeinState) (dv : Pos)
    (hdv : dv ∈ neighborVecs)
    (hair : solidName w st.dug (addVec st.pos dv) = none)
    (hd : st.dirIdx < 4) :
    ∃ d2, d2 < 4 ∧
      walkStepMove w st (addVec st.pos dv) =
        { st with pos := addVec st.pos dv, dirIdx := d2,
                  movesDone := st.movesDone + 1 } := by
  have hsub : subVec (addVec st.pos dv) st.pos = dv := subVec_addVec _ _
  have hup : addVec st.pos ((0:Int),(1:Int),(0:Int))
      = (st.pos.1, st.pos.2.1 + 1, st.pos.2.2) := by
    simp [addVec]
  have hdown : addVec st.pos ((0:Int),(-1:Int),(0:Int))
      = (st.pos.1, st.pos.2.1 - 1, st.pos.2.2) := by
    simp [addVec]
    omega
  fin_cases hdv
  · refine ⟨0, by omega, ?_⟩
    simp only [walkStepMove, hsub]
    rw [if_neg (by simp), if_neg (by simp)]
    have hfi : findDirIdx (((1:Int)), ((0:Int)), ((0:Int))) = some 0 := by decide
    rw [hfi]
    show stepForward w (faceDir st 0) = _
    rw [faceDir_eq st 0 hd (by omega)]
    have hdv0 : dirVec 0 = (((1:Int)), ((0:Int)), ((0:Int))) := by decide
    simp only [stepForward, hdv0]
    rw [if_neg (by rw [hair]; simp)]
    try simp
  · refine ⟨2, by omega, ?_⟩
    simp only [walkStepMove, hsub]
    rw [if_neg (by simp), if_neg (by simp)]
    have hfi : findDirIdx (((-1:Int)), ((0:Int)), ((0:Int))) = some 2 := by decide
    rw [hfi]
    show stepForward w (faceDir st 2) = _
    rw [faceDir_eq st 2 hd (by omega)]
    have hdv2 : dirVec 2 = (((-1:Int)), ((0:Int)), ((0:Int))) := by decide
    simp only [stepForward, hdv2]
    rw [if_neg (by rw [hair]; simp)]
    try simp
  · refine ⟨1, by omega, ?_⟩
    simp only [walkStepMove, hsub]
    rw [if_neg (by simp), if_neg (by simp)]
    have hfi : findDirIdx (((0:Int)), ((0:Int)), ((1:Int))) = some 1 := by decide
    rw [hfi]
    show stepForward w (faceDir st 1) = _
    rw [faceDir_eq st 1 hd (by omega)]
    have hdv1 : dirVec 1 = (((0:Int)), ((0:Int)), ((1:Int))) := by decide
    simp only [stepForward, hdv1]
    rw [if_neg (by rw [hair]; simp)]
    try simp
  · refine ⟨3, by omega, ?_⟩
    simp only [walkStepMove, hsub]
    rw [if_neg (by simp), if_neg (by simp)]
    have hfi : findDirIdx (((0:Int)), ((0:Int)), ((-1:Int))) = some 3 := by decide
    rw [hfi]
    show stepForward w (faceDir st 3) = _
    rw [faceDir_eq st 3 hd (by omega)]
    have hdv3 : dirVec 3 = (((0:Int)), ((0:Int)), ((-1:Int))) := by decide
    simp only [stepForward, hdv3]
    rw [if_neg (by rw [hair]; simp)]
    try simp
  · refine ⟨st.dirIdx, hd, ?_⟩
    simp only [walkStepMove, hsub, reduceIte, if_true]
    simp only [stepUp, hup.symm]
    rw [if_neg (by rw [hair]; simp)]
    try simp
  · refine ⟨st.dirIdx, hd, ?_⟩
    rw [hdown] at hair
    simp only [walkStepMove, hsub]
    rw [if_neg (by simp), if_pos trivial]
    simp only [stepDown]
    rw [if_neg (by rw [hair]; simp)]
    rw [← hdown]
    try simp

/-- Enlarging the dug overlay keeps air cells air. -/
theorem solidName_none_of_sub {w : World} {dug dug2 : List Pos} {c : Pos}
    (hsub : dug ⊆ dug2) (h : solidName w dug c = none) :
    solidName w dug2 c = none := by
  by_cases hc : c ∈ dug2
  · simp [solidName, hc]
  · have hc' : c ∉ dug := fun hd => hc (hsub hd)
    have hl : lookupBlock w c = none := by simpa [solidName, hc'] using h
    simp [solidName, hc, hl]

theorem getLastD_mem_cons2 (l : List Pos) :
    ∀ a : Pos, l.getLastD a ∈ a :: l := by
  induction l with
  | nil => intro a; simp [List.getLastD]
  | cons b bs ih =>
      intro a
      rw [List.getLastD_cons]
      exact List.mem_cons_of_mem a (ih b)

theorem getLastD_take_mem (l : List Pos) (c : Pos) (k : Nat) :
    (l.take k).getLastD c = c ∨ (l.take k).getLastD c ∈ l := by
  rcases h : l.take k with _ | ⟨a, as⟩
  · exact Or.inl rfl
  · rw [List.getLastD_cons]
    refine Or.inr (List.take_subset k l ?_)
    rw [h]
    exact getLastD_mem_cons2 as a

theorem getLastD_of_getLast_opt (l : List Pos) :
    ∀ (a b : Pos), (a :: l).getLast? = some b → l.getLastD a = b := by
  induction l with
  | nil =>
      intro a b h
      simp at h
      simpa [List.getLastD] using h
  | cons c cs ih =>
      intro a b h
      rw [List.getLast?_cons_cons] at h
      rw [List.getLastD_cons]
      exact ih c b h

/-- Walking a chain of air cells: the position lands on the last cell,
the heading stays in range, each step counts one physical move, and the
sets, counters and overlay are untouched. -/
theorem walkHome_spec (w : World) :
    ∀ (p : List Pos) (st : VeinState) (c : Pos),
      st.pos = c → st.dirIdx < 4 →
      List.Chain' Adjacent (c :: p) →
      (∀ x ∈ p, solidName w st.dug x = none) →
      ∃ d2, d2 < 4 ∧
        walkHome w p st =
          { st with pos := p.getLastD c, dirIdx := d2,
                    movesDone := st.movesDone + p.length } := by
  intro p
  induction p with
  | nil =>
      intro st c hc hd _ _
      refine ⟨st.dirIdx, hd, ?_⟩
      simp [walkHome, List.getLastD, ← hc]
  | cons step rest ih =>
      intro st c hc hd hchain hairall
      obtain ⟨hadj, hchain2⟩ := List.chain'_cons.mp hchain
      obtain ⟨dv, hdv, hstep⟩ := hadj
      have hstep' : step = addVec st.pos dv := by rw [hc]; exact hstep
      have hair1 : solidName w st.dug (addVec st.pos dv) = none := by
        rw [← hstep']
        exact hairall step (by simp)
      obtain ⟨d2, hd2, heq⟩ := walkStepMove_spec w st dv hdv hair1 hd
      rw [← hstep'] at heq
      have hunf : walkHome w (step :: rest) st
          = walkHome w rest (walkStepMove w st step) := rfl
      rw [hunf, heq]
      obtain ⟨d3, hd3, heq2⟩ := ih
        { st with pos := step, dirIdx := d2, movesDone := st.movesDone + 1 }
        step rfl hd2 hchain2
        (fun x hx => hairall x (List.mem_cons_of_mem _ hx))
      refine ⟨d3, hd3, ?_⟩
      rw [heq2]
      simp only [List.getLastD_cons, List.length_cons]
      congr 1
      omega

/-- One unfolding of the main-loop walk, with the stepped state and its
action count exposed. -/
theorem walkMain_cons (w : World) (maxA : Nat) (step : Pos)
    (rest : List Pos) (st st2 : VeinState) (a2 : Nat)
    (h : ({ walkStepMove w st step with
        actions := (walkStepMove w st step).actions + 1 } : VeinState) = st2)
    (ha : st2.actions = a2) :
    walkMain w maxA (step :: rest) st =
      if maxA ≤ a2 then st2 else walkMain w maxA rest st2 := by
  subst ha
  rw [← h]
  rfl

/-- Walking `path[1:]` in the main loop: some prefix of `k ≤ |p|` steps
is walked, each costing one action and one physical move; the walk
stops short of the full path only when the action budget is hit, and
the counter never passes the budget. -/
theorem walkMain_spec (w : World) (maxA : Nat) :
    ∀ (p : List Pos) (st : VeinState) (c : Pos),
      st.pos = c → st.dirIdx < 4 → st.actions < maxA →
      List.Chain' Adjacent (c :: p) →
      (∀ x ∈ p, solidName w st.dug x = none) →
      ∃ k d2, k ≤ p.length ∧ d2 < 4 ∧ st.actions + k ≤ maxA ∧
        walkMain w maxA p st =
          { st with pos := (p.take k).getLastD c, dirIdx := d2,
                    actions := st.actions + k,
                    movesDone := st.movesDone + k } ∧
        (k = p.length ∨ maxA ≤ st.actions + k) := by
  intro p
  induction p with
  | nil =>
      intro st c hc hd hlt _ _
      refine ⟨0, st.dirIdx, Nat.le_refl 0, hd, by omega, ?_, Or.inl rfl⟩
      simp [walkMain, List.getLastD, ← hc]
  | cons step rest ih =>
      intro st c hc hd hlt hchain hairall
      obtain ⟨hadj, hchain2⟩ := List.chain'_cons.mp hchain
      obtain ⟨dv, hdv, hstep⟩ := hadj
      have hstep' : step = addVec st.pos dv := by rw [hc]; exact hstep
      have hair1 : solidName w st.dug (addVec st.pos dv) = none := by
        rw [← hstep']
        exact hairall step (by simp)
      obtain ⟨d2, hd2, heq⟩ := walkStepMove_spec w st dv hdv hair1 hd
      rw [← hstep'] at heq
      rw [walkMain_cons w maxA step rest st
        { st with pos := step, dirIdx := d2, actions := st.actions + 1,
                  movesDone := st.movesDone + 1 }
        (st.actions + 1) (by rw [heq]) rfl]
      by_cases hbr : maxA ≤ st.actions + 1
      · refine ⟨1, d2, by simp, hd2, by omega, ?_, Or.inr (by omega)⟩
        rw [if_pos hbr]
        simp [List.getLastD_cons, List.getLastD]
      · rw [if_neg hbr]
        obtain ⟨k', d3, hk'le, hd3, hk'act, hweq', hdisj'⟩ := ih
          { st with pos := step, dirIdx := d2, actions := st.actions + 1,
                    movesDone := st.movesDone + 1 }
          step rfl hd2 (Nat.lt_of_not_le hbr) hchain2
          (fun x hx => hairall x (List.mem_cons_of_mem _ hx))
        have hk2 : st.actions + 1 + k' ≤ maxA := hk'act
        have hw2 : walkMain w maxA rest
            { st with pos := step, dirIdx := d2, actions := st.actions + 1,
                      movesDone := st.movesDone + 1 } =
            { st with pos := (rest.take k').getLastD step, dirIdx := d3,
                      actions := st.actions + 1 + k',
                      movesDone := st.movesDone + 1 + k' } := hweq'
        refine ⟨k' + 1, d3, ?_, hd3, ?_, ?_, ?_⟩
        · simp only [List.length_cons]; omega
        · omega
        · rw [hw2]
          simp only [List.take_succ_cons, List.getLastD_cons,
            List.length_cons]
          congr 1 <;> omega
        · rcases hdisj' with h | h
          · exact Or.inl (by simp [h])
          · refine Or.inr ?_
            have h2 : maxA ≤ st.actions + 1 + k' := h
            omega

/-! ### State preservation across the loop-body operations -/

/-- Agreement on everything except the heading and the caches. -/
def SamePhys (a b : VeinState) : Prop :=
  b.pos = a.pos ∧ b.mined = a.mined ∧ b.actions = a.actions ∧
  b.dug = a.dug ∧ b.movesDone = a.movesDone ∧ b.digsDone = a.digsDone

theorem samePhys_refl (a : VeinState) : SamePhys a a :=
  ⟨rfl, rfl, rfl, rfl, rfl, rfl⟩

theorem samePhys_trans {a b c : VeinState} (h1 : SamePhys a b)
    (h2 : SamePhys b c) : SamePhys a c := by
  obtain ⟨p1, m1, a1, d1, v1, g1⟩ := h1
  obtain ⟨p2, m2, a2, d2, v2, g2⟩ := h2
  exact ⟨p2.trans p1, m2.trans m1, a2.trans a1, d2.trans d1, v2.trans v1,
    g2.trans g1⟩

theorem turnLeftOp_phys (st : VeinState) : SamePhys st (turnLeftOp st) :=
  ⟨rfl, rfl, rfl, rfl, rfl, rfl⟩

theorem turnRightOp_phys (st : VeinState) : SamePhys st (turnRightOp st) :=
  ⟨rfl, rfl, rfl, rfl, rfl, rfl⟩

theorem inspectHorizontal_phys (w : World) (st : VeinState) :
    SamePhys st (inspectHorizontal w st) ∧
      (inspectHorizontal w st).dirIdx = st.dirIdx := by
  refine ⟨⟨?_, ?_, ?_, ?_, ?_, ?_⟩, ?_⟩ <;>
    cases h : cacheLookup st.inspected (addVec st.pos (dirVec st.dirIdx)) <;>
      simp [inspectHorizontal, h]

theorem inspectVertical_phys (w : World) (st : VeinState) (adj : Pos) :
    SamePhys st (inspectVertical w st adj) ∧
      (inspectVertical w st adj).dirIdx = st.dirIdx := by
  refine ⟨⟨?_, ?_, ?_, ?_, ?_, ?_⟩, ?_⟩ <;>
    cases h : cacheLookup st.inspected adj <;>
      simp [inspectVertical, h]

/-- One horizontal probe of the frontier refresh: inspect, then turn
right once. -/
theorem probe_phys (w : World) (st : VeinState) :
    SamePhys st (turnRightOp (inspectHorizontal w st)) ∧
      (turnRightOp (inspectHorizontal w st)).dirIdx
        = (st.dirIdx + 1) % 4 := by
  obtain ⟨q, e⟩ := inspectHorizontal_phys w st
  refine ⟨samePhys_trans q (turnRightOp_phys _), ?_⟩
  simp [turnRightOp, e]

theorem restoreDir_eq_self (st : VeinState) (start : Nat)
    (h : st.dirIdx = start) : restoreDir st start = st := by
  simp [restoreDir, h]

/-- `refresh_frontier_here` only touches the frontier and the
inspection cache: the pose, the sets and the counters survive. -/
theorem refreshFrontier_phys (w : World) (st : VeinState)
    (hd : st.dirIdx < 4) :
    SamePhys st (refreshFrontier w st) ∧
      (refreshFrontier w st).dirIdx = st.dirIdx := by
  obtain ⟨q1, e1⟩ := probe_phys w st
  obtain ⟨q2, e2⟩ := probe_phys w (turnRightOp (inspectHorizontal w st))
  obtain ⟨q3, e3⟩ := probe_phys w
    (turnRightOp (inspectHorizontal w (turnRightOp (inspectHorizontal w st))))
  obtain ⟨q4, e4⟩ := probe_phys w
    (turnRightOp (inspectHorizontal w
      (turnRightOp (inspectHorizontal w
        (turnRightOp (inspectHorizontal w st))))))
  have hs4 : SamePhys st
      (turnRightOp (inspectHorizontal w
        (turnRightOp (inspectHorizontal w
          (turnRightOp (inspectHorizontal w
            (turnRightOp (inspectHorizontal w st)))))))) :=
    samePhys_trans q1 (samePhys_trans q2 (samePhys_trans q3 q4))
  have hd4 : (turnRightOp (inspectHorizontal w
      (turnRightOp (inspectHorizontal w
        (turnRightOp (inspectHorizontal w
          (turnRightOp (inspectHorizontal w st)))))))).dirIdx
        = st.dirIdx := by
    rw [e4, e3, e2, e1]
    omega
  simp only [refreshFrontier]
  rw [restoreDir_eq_self _ _ hd4]
  refine ⟨samePhys_trans hs4
    (samePhys_trans (inspectVertical_phys w _ _).1
      (inspectVertical_phys w _ _).1), ?_⟩
  rw [(inspectVertical_phys w _ _).2, (inspectVertical_phys w _ _).2, hd4]

theorem faceDir_phys (st : VeinState) (t : Nat) (hd : st.dirIdx < 4) :
    SamePhys st (faceDir st t) ∧ (faceDir st t).dirIdx < 4 := by
  simp only [faceDir]
  by_cases h1 : st.dirIdx = t
  · rw [if_pos h1]
    exact ⟨samePhys_refl st, hd⟩
  · rw [if_neg h1]
    by_cases h2 : (t + 4 - st.dirIdx) % 4 = 1
    · rw [if_pos h2]
      exact ⟨turnRightOp_phys st, by simp [turnRightOp]; omega⟩
    · rw [if_neg h2]
      by_cases h3 : (t + 4 - st.dirIdx) % 4 = 2
      · rw [if_pos h3]
        exact ⟨samePhys_trans (turnRightOp_phys st) (turnRightOp_phys _),
          by simp [turnRightOp]; omega⟩
      · rw [if_neg h3]
        exact ⟨turnLeftOp_phys st, by simp [turnLeftOp]; omega⟩

theorem digAt_phys (w : World) (st : VeinState) (tgt : Pos) :
    (digAt w st tgt).pos = st.pos ∧ (digAt w st tgt).dirIdx = st.dirIdx ∧
    (digAt w st tgt).mined = st.mined ∧
    (digAt w st tgt).actions = st.actions ∧
    (digAt w st tgt).movesDone = st.movesDone ∧
    st.dug ⊆ (digAt w st tgt).dug := by
  unfold digAt
  split
  · exact ⟨rfl, rfl, rfl, rfl, rfl, sub_of_insertPos⟩
  · exact ⟨rfl, rfl, rfl, rfl, rfl, fun x hx => hx⟩

theorem digFwd_phys (w : World) (st : VeinState) :
    (digFwd w st).pos = st.pos ∧ (digFwd w st).dirIdx = st.dirIdx ∧
    (digFwd w st).mined = st.mined ∧
    (digFwd w st).actions = st.actions ∧
    (digFwd w st).movesDone = st.movesDone ∧
    st.dug ⊆ (digFwd w st).dug := digAt_phys w st _

theorem digUpOp_phys (w : World) (st : VeinState) :
    (digUpOp w st).pos = st.pos ∧ (digUpOp w st).dirIdx = st.dirIdx ∧
    (digUpOp w st).mined = st.mined ∧
    (digUpOp w st).actions = st.actions ∧
    (digUpOp w st).movesDone = st.movesDone ∧
    st.dug ⊆ (digUpOp w st).dug := digAt_phys w st _

theorem digDownOp_phys (w : World) (st : VeinState) :
    (digDownOp w st).pos = st.pos ∧ (digDownOp w st).dirIdx = st.dirIdx ∧
    (digDownOp w st).mined = st.mined ∧
    (digDownOp w st).actions = st.actions ∧
    (digDownOp w st).movesDone = st.movesDone ∧
    st.dug ⊆ (digDownOp w st).dug := digAt_phys w st _

theorem dirVec_mem_neighborVecs (d : Nat) : dirVec d ∈ neighborVecs := by
  rcases d with _ | _ | _ | n <;> simp [dirVec, neighborVecs]

theorem adjacent_up (p : Pos) : Adjacent p (p.1, p.2.1 + 1, p.2.2) :=
  ⟨(0,1,0), by simp [neighborVecs], by simp [addVec]⟩

theorem adjacent_down (p : Pos) : Adjacent p (p.1, p.2.1 - 1, p.2.2) :=
  ⟨(0,-1,0), by simp [neighborVecs], by simp [addVec, sub_eq_add_neg]⟩

theorem stepForward_spec (w : World) (st : VeinState) :
    stepForward w st = st ∨
      (stepForward w st =
        { st with pos := addVec st.pos (dirVec st.dirIdx),
                  movesDone := st.movesDone + 1 } ∧
        solidName w st.dug (addVec st.pos (dirVec st.dirIdx)) = none) := by
  cases hs : solidName w st.dug (addVec st.pos (dirVec st.dirIdx)) with
  | none => exact Or.inr ⟨by simp [stepForward, hs], rfl⟩
  | some v => exact Or.inl (by simp [stepForward, hs])

theorem stepUp_spec (w : World) (st : VeinState) :
    stepUp w st = st ∨
      (stepUp w st =
        { st with pos := (st.pos.1, st.pos.2.1 + 1, st.pos.2.2),
                  movesDone := st.movesDone + 1 } ∧
        solidName w st.dug (st.pos.1, st.pos.2.1 + 1, st.pos.2.2)
          = none) := by
  cases hs : solidName w st.dug (st.pos.1, st.pos.2.1 + 1, st.pos.2.2) with
  | none => exact Or.inr ⟨by simp [stepUp, hs], rfl⟩
  | some v => exact Or.inl (by simp [stepUp, hs])

theorem stepDown_spec (w : World) (st : VeinState) :
    stepDown w st = st ∨
      (stepDown w st =
        { st with pos := (st.pos.1, st.pos.2.1 - 1, st.pos.2.2),
                  movesDone := st.movesDone + 1 } ∧
        solidName w st.dug (st.pos.1, st.pos.2.1 - 1, st.pos.2.2)
          = none) := by
  cases hs : solidName w st.dug (st.pos.1, st.pos.2.1 - 1, st.pos.2.2) with
  | none => exact Or.inr ⟨by simp [stepDown, hs], rfl⟩
  | some v => exact Or.inl (by simp [stepDown, hs])

/-- Digging forward and stepping in: the pose either stays or advances
one adjacent step onto a now-air cell; sets and counters survive. -/
theorem digStep_spec (w : World) (s : VeinState) :
    (stepForward w (digFwd w s)).dirIdx = s.dirIdx ∧
    (stepForward w (digFwd w s)).mined = s.mined ∧
    (stepForward w (digFwd w s)).actions = s.actions ∧
    s.dug ⊆ (stepForward w (digFwd w s)).dug ∧
    ((stepForward w (digFwd w s)).pos = s.pos ∨
      (Adjacent s.pos (stepForward w (digFwd w s)).pos ∧
        solidName w (stepForward w (digFwd w s)).dug
          (stepForward w (digFwd w s)).pos = none)) := by
  obtain ⟨pd, dd, md, ad, vd, sd⟩ := digFwd_phys w s
  rcases stepForward_spec w (digFwd w s) with hS | ⟨hS, hSair⟩
  · rw [hS]
    exact ⟨dd, md, ad, sd, Or.inl pd⟩
  · rw [pd] at hS hSair
    rw [hS]
    exact ⟨dd, md, ad, sd, Or.inr
      ⟨adjacent_of_delta (dirVec_mem_neighborVecs (digFwd w s).dirIdx),
        hSair⟩⟩

theorem digStepUp_spec (w : World) (s : VeinState) :
    (stepUp w (digUpOp w s)).dirIdx = s.dirIdx ∧
    (stepUp w (digUpOp w s)).mined = s.mined ∧
    (stepUp w (digUpOp w s)).actions = s.actions ∧
    s.dug ⊆ (stepUp w (digUpOp w s)).dug ∧
    ((stepUp w (digUpOp w s)).pos = s.pos ∨
      (Adjacent s.pos (stepUp w (digUpOp w s)).pos ∧
        solidName w (stepUp w (digUpOp w s)).dug
          (stepUp w (digUpOp w s)).pos = none)) := by
  obtain ⟨pd, dd, md, ad, vd, sd⟩ := digUpOp_phys w s
  rcases stepUp_spec w (digUpOp w s) with hS | ⟨hS, hSair⟩
  · rw [hS]
    exact ⟨dd, md, ad, sd, Or.inl pd⟩
  · rw [pd] at hS hSair
    rw [hS]
    exact ⟨dd, md, ad, sd, Or.inr ⟨adjacent_up s.pos, hSair⟩⟩

theorem digStepDown_spec (w : World) (s : VeinState) :
    (stepDown w (digDownOp w s)).dirIdx = s.dirIdx ∧
    (stepDown w (digDownOp w s)).mined = s.mined ∧
    (stepDown w (digDownOp w s)).actions = s.actions ∧
    s.dug ⊆ (stepDown w (digDownOp w s)).dug ∧
    ((stepDown w (digDownOp w s)).pos = s.pos ∨
      (Adjacent s.pos (stepDown w (digDownOp w s)).pos ∧
        solidName w (stepDown w (digDownOp w s)).dug
          (stepDown w (digDownOp w s)).pos = none)) := by
  obtain ⟨pd, dd, md, ad, vd, sd⟩ := digDownOp_phys w s
  rcases stepDown_spec w (digDownOp w s) with hS | ⟨hS, hSair⟩
  · rw [hS]
    exact ⟨dd, md, ad, sd, Or.inl pd⟩
  · rw [pd] at hS hSair
    rw [hS]
    exact ⟨dd, md, ad, sd, Or.inr ⟨adjacent_down s.pos, hSair⟩⟩

/-- The frontier-mining move: the heading stays in range, the sets and
the action counter are untouched, the dug overlay only grows, and the
pose either stays or advances one adjacent step onto an air cell. -/
theorem mineTarget_spec (w : World) (st : VeinState) (b : BestChoice)
    (hd : st.dirIdx < 4) :
    (mineTarget w st b).dirIdx < 4 ∧
    (mineTarget w st b).mined = st.mined ∧
    (mineTarget w st b).actions = st.actions ∧
    st.dug ⊆ (mineTarget w st b).dug ∧
    ((mineTarget w st b).pos = st.pos ∨
      (Adjacent st.pos (mineTarget w st b).pos ∧
        solidName w (mineTarget w st b).dug (mineTarget w st b).pos
          = none)) := by
  simp only [mineTarget]
  by_cases h0 : 0 ≤ b.faceIdxI
  · rw [if_pos h0]
    obtain ⟨qf, hf4⟩ := faceDir_phys st b.faceIdxI.toNat hd
    obtain ⟨pf, mf, af, dgf, vf, gf⟩ := qf
    obtain ⟨hdd, hdm, hda, hddug, hdpos⟩ :=
      digStep_spec w (faceDir st b.faceIdxI.toNat)
    refine ⟨by rw [hdd]; exact hf4, by rw [hdm, mf], by rw [hda, af],
      ?_, ?_⟩
    · rw [← dgf]; exact hddug
    · rcases hdpos with hp | ⟨hadj, hairs⟩
      · exact Or.inl (by rw [hp, pf])
      · refine Or.inr ⟨?_, hairs⟩
        rw [← pf]
        exact hadj
  · rw [if_neg h0]
    by_cases h1 : b.delta = ((0 : Int), (1 : Int), (0 : Int))
    · rw [if_pos h1]
      obtain ⟨hdd, hdm, hda, hddug, hdpos⟩ := digStepUp_spec w st
      exact ⟨by rw [hdd]; exact hd, hdm, hda, hddug, hdpos⟩
    · rw [if_neg h1]
      by_cases h2 : b.delta = ((0 : Int), (-1 : Int), (0 : Int))
      · rw [if_pos h2]
        obtain ⟨hdd, hdm, hda, hddug, hdpos⟩ := digStepDown_spec w st
        exact ⟨by rw [hdd]; exact hd, hdm, hda, hddug, hdpos⟩
      · rw [if_neg h2]
        exact ⟨hd, rfl, rfl, fun x hx => hx, Or.inl rfl⟩

/-! ### Soundness of the best-candidate scan -/

theorem adjacentMinedNeighbors_mem {mined : List Pos} {target : Pos}
    {c : Pos × Pos × Int} (h : c ∈ adjacentMinedNeighbors mined target) :
    c.1 ∈ mined := by
  simp only [adjacentMinedNeighbors, List.mem_filterMap] at h
  obtain ⟨a, _, ha⟩ := h
  by_cases hm : subVec target a.1 ∈ mined
  · rw [if_pos hm] at ha
    cases ha
    exact hm
  · rw [if_neg hm] at ha
    cases ha

theorem considerCand_good {mined : List Pos} {pos tgt : Pos}
    {best : Option BestChoice} {c : Pos × Pos × Int}
    (hc : c.1 ∈ mined)
    (hbest : ∀ b0, best = some b0 →
      ∃ adj, adj ∈ mined ∧ bfsPath mined pos adj = some b0.path) :
    ∀ b0, considerCand mined pos tgt best c = some b0 →
      ∃ adj, adj ∈ mined ∧ bfsPath mined pos adj = some b0.path := by
  intro b0 h
  cases hp : bfsPath mined pos c.1 with
  | none =>
      simp only [considerCand, hp] at h
      exact hbest b0 h
  | some p =>
      simp only [considerCand, hp] at h
      cases hb : best with
      | none =>
          simp only [hb] at h
          simp only [Option.some.injEq] at h
          subst h
          exact ⟨c.1, hc, hp⟩
      | some b1 =>
          simp only [hb] at h
          by_cases hlen : p.length < b1.path.length
          · rw [if_pos hlen] at h
            simp only [Option.some.injEq] at h
            subst h
            exact ⟨c.1, hc, hp⟩
          · rw [if_neg hlen] at h
            simp only [Option.some.injEq] at h
            subst h
            exact hbest b1 hb

theorem considerCand_foldl_good {mined : List Pos} {pos tgt : Pos} :
    ∀ (l : List (Pos × Pos × Int)) (init : Option BestChoice),
      (∀ c ∈ l, c.1 ∈ mined) →
      (∀ b0, init = some b0 →
        ∃ adj, adj ∈ mined ∧ bfsPath mined pos adj = some b0.path) →
      ∀ b0, l.foldl (considerCand mined pos tgt) init = some b0 →
        ∃ adj, adj ∈ mined ∧ bfsPath mined pos adj = some b0.path := by
  intro l
  induction l with
  | nil => intro init _ hinit b0 h; exact hinit b0 h
  | cons c cs ih =>
      intro init hmem hinit b0 h
      rw [List.foldl_cons] at h
      exact ih (considerCand mined pos tgt init c)
        (fun x hx => hmem x (List.mem_cons_of_mem _ hx))
        (considerCand_good (hmem c (by simp)) hinit) b0 h

/-- `selectBest` only ever returns a choice whose path is an actual BFS
path from the pose to a mined approach cell. -/
theorem selectBest_sound {mined frontier : List Pos} {pos : Pos}
    {b : BestChoice} (h : selectBest mined frontier pos = some b) :
    ∃ adj, adj ∈ mined ∧ bfsPath mined pos adj = some b.path := by
  simp only [selectBest] at h
  have H : ∀ (fr : List Pos) (init : Option BestChoice),
      (∀ b0, init = some b0 →
        ∃ adj, adj ∈ mined ∧ bfsPath mined pos adj = some b0.path) →
      ∀ b0, fr.foldl (fun best tgt =>
          (adjacentMinedNeighbors mined tgt).foldl
            (considerCand mined pos tgt) best) init = some b0 →
        ∃ adj, adj ∈ mined ∧ bfsPath mined pos adj = some b0.path := by
    intro fr
    induction fr with
    | nil => intro init hinit b0 h0; exact hinit b0 h0
    | cons tgt rest ih =>
        intro init hinit b0 h0
        rw [List.foldl_cons] at h0
        exact ih _ (considerCand_foldl_good _ _
          (fun c hc => adjacentMinedNeighbors_mem hc) hinit) b0 h0
  exact H frontier none (fun b0 h0 => by cases h0) b h

/-! ### The loop invariant -/

/-- The invariant of the mining loop: a valid heading, the origin and
the pose lie in `mined`, every mined cell is air under the overlay, and
every mined cell is reachable from the origin through mined cells. -/
structure VeinInv (w : World) (st : VeinState) : Prop where
  dirLt : st.dirIdx < 4
  originMem : (((0 : Int), (0 : Int), (0 : Int)) : Pos) ∈ st.mined
  posMem : st.pos ∈ st.mined
  minedAir : ∀ c ∈ st.mined, solidName w st.dug c = none
  reachAll : ∀ c ∈ st.mined,
    ReachIn st.mined (((0 : Int), (0 : Int), (0 : Int)) : Pos) c

theorem veinInv_of_samePhys {w : World} {a b : VeinState}
    (hq : SamePhys a b) (hdir : b.dirIdx = a.dirIdx) (h : VeinInv w a) :
    VeinInv w b := by
  obtain ⟨hp, hm, ha, hdug, hmv, hdg⟩ := hq
  refine ⟨?_, ?_, ?_, ?_, ?_⟩
  · rw [hdir]; exact h.dirLt
  · rw [hm]; exact h.originMem
  · rw [hp, hm]; exact h.posMem
  · rw [hm, hdug]; exact h.minedAir
  · rw [hm]; exact h.reachAll


/-! ### The main loop and the full subroutine -/

/-- The main mining loop: with fuel beyond the remaining action budget
it terminates with `some`, preserves the invariant, and never drives
the internal action counter past `max_actions`. -/
theorem veinLoop_spec (w : World) (maxA : Nat) :
    ∀ (fuel : Nat) (st : VeinState), VeinInv w st → st.actions ≤ maxA →
      maxA + 1 ≤ fuel + st.actions →
      ∃ st', veinLoop w maxA fuel st = some st' ∧ VeinInv w st' ∧
        st'.actions ≤ maxA := by
  intro fuel
  induction fuel with
  | zero =>
      intro st _ hle hfuel
      exact absurd hfuel (by omega)
  | succ fuel ih =>
      intro st hinv hle hfuel
      by_cases hstop :
          (st.frontier.isEmpty || decide (maxA ≤ st.actions)) = true
      · refine ⟨st, ?_, hinv, hle⟩
        simp only [veinLoop]
        rw [if_pos hstop]
      · have hlt : st.actions < maxA := by
          by_contra hcon
          exact hstop (by simp [Nat.le_of_not_lt hcon])
        simp only [veinLoop]
        rw [if_neg hstop]
        cases hsel : selectBest st.mined st.frontier st.pos with
        | none =>
            refine ⟨st, ?_, hinv, hle⟩
            simp only [hsel]
        | some b =>
            simp only [hsel]
            obtain ⟨adj, hadjmem, hbfs⟩ := selectBest_sound hsel
            obtain ⟨hhead, hlast, hchain, htail⟩ := bfsPath_sound hbfs
            have hpath : b.path = st.pos :: b.path.tail := by
              cases hp : b.path with
              | nil => rw [hp] at hhead; cases hhead
              | cons a t =>
                  rw [hp] at hhead
                  simp only [List.head?_cons, Option.some.injEq] at hhead
                  rw [hhead]
                  rfl
            have hchain2 : List.Chain' Adjacent (st.pos :: b.path.tail) := by
              rw [← hpath]; exact hchain
            have hairs : ∀ x ∈ b.path.tail, solidName w st.dug x = none :=
              fun x hx => hinv.minedAir x (htail x hx)
            obtain ⟨k, d2, hkle, hd2, hkact, hweq, hkdisj⟩ :=
              walkMain_spec w maxA b.path.tail st st.pos rfl hinv.dirLt hlt
                hchain2 hairs
            have hposmem :
                (b.path.tail.take k).getLastD st.pos ∈ st.mined := by
              rcases getLastD_take_mem b.path.tail st.pos k with h | h
              · rw [h]; exact hinv.posMem
              · exact htail _ h
            have hcond : (maxA ≤ (walkMain w maxA b.path.tail st).actions)
                = (maxA ≤ st.actions + k) := by rw [hweq]
            simp only [hcond]
            by_cases hbr : maxA ≤ st.actions + k
            · rw [if_pos hbr]
              refine ⟨_, rfl, ?_, ?_⟩
              · rw [hweq]
                exact ⟨hd2, hinv.originMem, hposmem, hinv.minedAir,
                  hinv.reachAll⟩
              · rw [hweq]
                exact hkact
            · rw [if_neg hbr]
              have hdST1 : (walkMain w maxA b.path.tail st).dirIdx < 4 := by
                rw [hweq]; exact hd2
              obtain ⟨hmt4, hmtm, hmta, hmtdug, hmtpos⟩ :=
                mineTarget_spec w (walkMain w maxA b.path.tail st) b hdST1
              have hmtm2 :
                  (mineTarget w (walkMain w maxA b.path.tail st) b).mined
                    = st.mined := by rw [hmtm, hweq]
              have hmta2 :
                  (mineTarget w (walkMain w maxA b.path.tail st) b).actions
                    = st.actions + k := by rw [hmta, hweq]
              have hdugeq : (walkMain w maxA b.path.tail st).dug = st.dug := by
                rw [hweq]
              have hmtdug2 : st.dug ⊆
                  (mineTarget w (walkMain w maxA b.path.tail st) b).dug := by
                rw [← hdugeq]; exact hmtdug
              have hposeq : (walkMain w maxA b.path.tail st).pos
                  = (b.path.tail.take k).getLastD st.pos := by rw [hweq]
              rw [hposeq] at hmtpos
              set MT := mineTarget w (walkMain w maxA b.path.tail st) b
                with hMT
              set REC : VeinState :=
                { MT with mined := insertPos MT.mined MT.pos,
                          frontier := MT.frontier.erase b.target,
                          actions := MT.actions + 1 } with hREC
              have hsub' : st.mined ⊆ insertPos MT.mined MT.pos := by
                rw [hmtm2]
                exact sub_of_insertPos
              have hinvREC : VeinInv w REC := by
                refine ⟨hmt4, ?_, ?_, ?_, ?_⟩
                · show (((0 : Int), (0 : Int), (0 : Int)) : Pos)
                    ∈ insertPos MT.mined MT.pos
                  exact hsub' hinv.originMem
                · show MT.pos ∈ insertPos MT.mined MT.pos
                  exact self_mem_insertPos
                · show ∀ c ∈ insertPos MT.mined MT.pos,
                    solidName w MT.dug c = none
                  intro c hc
                  rcases mem_insertPos.mp hc with hcm | rfl
                  · rw [hmtm2] at hcm
                    exact solidName_none_of_sub hmtdug2
                      (hinv.minedAir c hcm)
                  · rcases hmtpos with hp | ⟨_, hairMT⟩
                    · rw [hp]
                      exact solidName_none_of_sub hmtdug2
                        (hinv.minedAir _ hposmem)
                    · exact hairMT
                · show ∀ c ∈ insertPos MT.mined MT.pos,
                    ReachIn (insertPos MT.mined MT.pos)
                      (((0 : Int), (0 : Int), (0 : Int)) : Pos) c
                  intro c hc
                  rcases mem_insertPos.mp hc with hcm | rfl
                  · rw [hmtm2] at hcm
                    exact (hinv.reachAll c hcm).mono hsub'
                  · rcases hmtpos with hp | ⟨hadjP, _⟩
                    · have hposmem' : MT.pos ∈ st.mined := by
                        rw [hp]; exact hposmem
                      exact (hinv.reachAll _ hposmem').mono hsub'
                    · exact ReachIn.tail
                        ((hinv.reachAll _ hposmem).mono hsub') hadjP
                        self_mem_insertPos
              have hdREC : REC.dirIdx < 4 := hmt4
              obtain ⟨qX, eX⟩ := refreshFrontier_phys w REC hdREC
              have hinvX : VeinInv w (refreshFrontier w REC) :=
                veinInv_of_samePhys qX eX hinvREC
              have haX : (refreshFrontier w REC).actions = REC.actions :=
                qX.2.2.1
              have hleX : (refreshFrontier w REC).actions ≤ maxA := by
                rw [haX]
                show MT.actions + 1 ≤ maxA
                rw [hmta2]
                omega
              have hfuelX : maxA + 1 ≤ fuel + (refreshFrontier w REC).actions := by
                rw [haX]
                show maxA + 1 ≤ fuel + (MT.actions + 1)
                rw [hmta2]
                omega
              exact ih _ hinvX hleX hfuelX

/-- C3 (amended): whenever the start cell itself is air, `mine_ore_vein`
terminates with its internal action counter at most `max_actions`, back
at the origin and facing the initial heading.  (The counter weighs a
whole dig-plus-move mining step as one action and does not count the
walk home, so physical moves plus digs may exceed `max_actions`, as the
counterexample shows.) -/
theorem mine_ore_vein_amended (w : World) (maxA : Nat)
    (hair : lookupBlock w (((0 : Int), (0 : Int), (0 : Int))) = none) :
    ∃ st, mineOreVein w maxA = some st ∧ st.actions ≤ maxA ∧
      st.pos = (((0 : Int), (0 : Int), (0 : Int)) : Pos) ∧
      st.dirIdx = 0 := by
  have hinv0 : VeinInv w initialVeinState := by
    refine ⟨by simp [initialVeinState], by simp [initialVeinState],
      by simp [initialVeinState], ?_, ?_⟩
    · intro c hc
      simp only [initialVeinState, List.mem_singleton] at hc
      subst hc
      simp [solidName, initialVeinState]
      exact hair
    · intro c hc
      simp only [initialVeinState, List.mem_singleton] at hc
      subst hc
      exact ReachIn.refl _
  obtain ⟨hq0, hd0⟩ := refreshFrontier_phys w initialVeinState (by decide)
  have hinv1 : VeinInv w (refreshFrontier w initialVeinState) :=
    veinInv_of_samePhys hq0 hd0 hinv0
  have hact1 : (refreshFrontier w initialVeinState).actions = 0 := by
    obtain ⟨_, _, ha, _, _, _⟩ := hq0
    rw [ha]
    simp [initialVeinState]
  obtain ⟨stL, hrun, hinvL, hleL⟩ := veinLoop_spec w maxA (maxA + 1)
    (refreshFrontier w initialVeinState) hinv1 (by simp [hact1])
    (by simp [hact1])
  delta mineOreVein
  simp only [hrun]
  by_cases hpos : stL.pos = (((0 : Int), (0 : Int), (0 : Int)) : Pos)
  · rw [if_neg (not_not_intro hpos)]
    have hfp := faceDir_eq stL 0 hinvL.dirLt (by omega)
    refine ⟨_, rfl, ?_, ?_, ?_⟩
    · rw [hfp]
      exact hleL
    · rw [hfp]
      exact hpos
    · rw [hfp]
  · rw [if_pos hpos]
    have hreach : ReachIn stL.mined stL.pos
        (((0 : Int), (0 : Int), (0 : Int)) : Pos) :=
      ReachIn.symm_of_mem (hinvL.reachAll stL.pos hinvL.posMem)
        hinvL.originMem
    obtain ⟨ph, hph⟩ := bfsPath_complete hreach
    obtain ⟨hh, hl, hch, htl⟩ := bfsPath_sound hph
    simp only [hph]
    have hpath : ph = stL.pos :: ph.tail := by
      cases hp : ph with
      | nil => rw [hp] at hh; cases hh
      | cons a t =>
          rw [hp] at hh
          simp only [List.head?_cons, Option.some.injEq] at hh
          rw [hh]
          rfl
    have hchain2 : List.Chain' Adjacent (stL.pos :: ph.tail) := by
      rw [← hpath]; exact hch
    have hairs : ∀ x ∈ ph.tail, solidName w stL.dug x = none :=
      fun x hx => hinvL.minedAir x (htl x hx)
    obtain ⟨d2, hd2, hwalk⟩ := walkHome_spec w ph.tail stL stL.pos rfl
      hinvL.dirLt hchain2 hairs
    have hend : ph.tail.getLastD stL.pos
        = (((0 : Int), (0 : Int), (0 : Int)) : Pos) := by
      refine getLastD_of_getLast_opt ph.tail stL.pos _ ?_
      rw [← hpath]
      exact hl
    have hfp := faceDir_eq (walkHome w ph.tail stL) 0
      (by rw [hwalk]; exact hd2) (by omega)
    refine ⟨_, rfl, ?_, ?_, ?_⟩
    · rw [hfp, hwalk]
      exact hleL
    · rw [hfp, hwalk]
      exact hend
    · rw [hfp]

theorem mine_ore_vein_amended_witness :
    lookupBlock [] (((0 : Int), (0 : Int), (0 : Int))) = none ∧
    ∃ st, mineOreVein [] 0 = some st ∧ st.actions ≤ 0 ∧
      st.pos = (((0 : Int), (0 : Int), (0 : Int)) : Pos) ∧
      st.dirIdx = 0 :=
  ⟨rfl, mine_ore_vein_amended [] 0 rfl⟩


end TaaS
